import Mathlib

/-!
Verification of the T-Book normalization-and-translation pipeline.

The Python sources are shallowly embedded:
* JSON-like Python values become the inductive type `PyVal`;
* `uuid.uuid4()` is modelled as a fresh-id counter threaded through the
  normalizer state (only freshness/uniqueness of the ids matters);
* `asyncio.gather` over a list of awaitables is modelled as a sequential
  traversal in the `Except` monad: it succeeds iff every member succeeds
  (gather fails as soon as any task raises) and results are joined back
  by position, which is the observable behaviour of the code;
* Python `TypeError` raised by a call with the wrong number of arguments
  is modelled by giving each translator method the type
  `List PyVal → Except PyErr PyVal` and having it reject argument lists
  whose length differs from its parameter count.
-/

namespace TBook

/-- JSON-like Python value: mapping, sequence, string, or other scalar. -/
inductive PyVal : Type where
  | str (s : String)
  | num (n : Int)
  | bool (b : Bool)
  | null
  | list (items : List PyVal)
  | dict (entries : List (String × PyVal))

/-- Python errors the embedding distinguishes. -/
inductive PyErr : Type where
  | typeError
  | other (msg : String)
deriving DecidableEq, Repr

/-- Python truthiness of a value (`if v:`). -/
def pyTruthy : PyVal → Bool
  | .str s => s ≠ ""
  | .num n => n ≠ 0
  | .bool b => b
  | .null => false
  | .list [] => false
  | .list (_ :: _) => true
  | .dict [] => false
  | .dict (_ :: _) => true

/-- `d.get(k)` on a Python dict, as first-match lookup on the entry list. -/
def dictGet (entries : List (String × PyVal)) (k : String) : Option PyVal :=
  (entries.find? (fun kv => kv.1 == k)).map (fun kv => kv.2)

theorem list_one_le_sizeOf {α : Type} [SizeOf α] (l : List α) : 1 ≤ sizeOf l := by
  cases l
  · simp
  · simp
    omega

theorem sizeOf_list_take_le {α : Type} [SizeOf α] :
    ∀ (n : Nat) (l : List α), sizeOf (l.take n) ≤ sizeOf l
  | 0, l => by simpa using list_one_le_sizeOf l
  | _ + 1, [] => by simp
  | n + 1, a :: l => by
      have := sizeOf_list_take_le n l
      simp [List.take]
      omega

theorem sizeOf_list_drop_le {α : Type} [SizeOf α] :
    ∀ (n : Nat) (l : List α), sizeOf (l.drop n) ≤ sizeOf l
  | 0, _ => le_refl _
  | _ + 1, [] => le_refl _
  | n + 1, a :: l => by
      have := sizeOf_list_drop_le n l
      simp [List.drop]
      omega

/-! ## DataProcessor (src/utils/data_processor.py)

`DataProcessor.process(data, translator)` recursively translates a
structure; the translator is called correctly with one argument, so it is
embedded as `tr : String → Except PyErr String`. -/

/-- The branch condition of `DataProcessor._process_list` (line 34):
large lists get batched processing. -/
def dpUsesChunking (data : List PyVal) : Bool :=
  data.length > 1000

/-- `chunk_size = 500` in `DataProcessor._process_large_list`. -/
def dpChunkSize : Nat := 500

mutual

/-- `DataProcessor.process`: dispatch on the dynamic type of `data`. -/
def dpProcess (tr : String → Except PyErr String) : PyVal → Except PyErr PyVal
  | .dict entries => do
      let entries' ← dpProcessDict tr entries
      pure (.dict entries')
  | .list items => do
      let items' ← dpProcessList tr items
      pure (.list items')
  | .str s => do
      let s' ← tr s
      pure (.str s')
  | .num n => pure (.num n)
  | .bool b => pure (.bool b)
  | .null => pure .null
termination_by v => (sizeOf v, 3)
decreasing_by
  all_goals simp_wf
  · exact Prod.Lex.left _ _ (by omega)
  · exact Prod.Lex.left _ _ (by omega)

/-- `DataProcessor._process_list`: lists longer than 1000 get chunked
processing, otherwise one `asyncio.gather` over all items. -/
def dpProcessList (tr : String → Except PyErr String) (data : List PyVal) :
    Except PyErr (List PyVal) :=
  if dpUsesChunking data then dpProcessLarge tr data
  else dpProcessSeq tr data
termination_by (sizeOf data, 2)
decreasing_by
  · exact Prod.Lex.right _ (by omega)
  · exact Prod.Lex.right _ (by omega)

/-- One `asyncio.gather([process(item) for item in data])`: all items are
processed and joined back in position order; it fails iff any item fails. -/
def dpProcessSeq (tr : String → Except PyErr String) :
    List PyVal → Except PyErr (List PyVal)
  | [] => pure []
  | v :: vs => do
      let v' ← dpProcess tr v
      let vs' ← dpProcessSeq tr vs
      pure (v' :: vs')
termination_by data => (sizeOf data, 0)
decreasing_by
  all_goals simp_wf
  · exact Prod.Lex.left _ _ (by omega)
  · exact Prod.Lex.left _ _ (by omega)

/-- `DataProcessor._process_large_list`: the `for i in range(0, len(data),
chunk_size)` loop, gathering each 500-item chunk and extending `results`. -/
def dpProcessLarge (tr : String → Except PyErr String) :
    List PyVal → Except PyErr (List PyVal)
  | [] => pure []
  | v :: vs => do
      let chunk ← dpProcessSeq tr ((v :: vs).take dpChunkSize)
      let rest ← dpProcessLarge tr ((v :: vs).drop dpChunkSize)
      pure (chunk ++ rest)
termination_by data => (sizeOf data, 1)
decreasing_by
  all_goals simp_wf
  · have h := sizeOf_list_take_le (α := PyVal) dpChunkSize (v :: vs)
    simp only [List.cons.sizeOf_spec] at h
    rcases lt_or_eq_of_le h with h | h
    · exact Prod.Lex.left _ _ h
    · rw [h]
      exact Prod.Lex.right _ (by omega)
  · have h : dpChunkSize = 499 + 1 := rfl
    rw [h, List.drop_succ_cons]
    have h2 := sizeOf_list_drop_le (α := PyVal) 499 vs
    exact Prod.Lex.left _ _ (by omega)

/-- `DataProcessor._process_dict`: gather over the values, zipped back
with the keys in original key order. -/
def dpProcessDict (tr : String → Except PyErr String) :
    List (String × PyVal) → Except PyErr (List (String × PyVal))
  | [] => pure []
  | (k, v) :: kvs => do
      let v' ← dpProcess tr v
      let kvs' ← dpProcessDict tr kvs
      pure ((k, v') :: kvs')
termination_by kvs => (sizeOf kvs, 0)
decreasing_by
  all_goals simp_wf
  · exact Prod.Lex.left _ _ (by omega)
  · exact Prod.Lex.left _ _ (by omega)

end

/-- Is an `Except` value a success? -/
def exceptOk {ε α : Type} : Except ε α → Bool
  | .ok _ => true
  | .error _ => false

theorem dpProcessSeq_append (tr : String → Except PyErr String)
    (l1 l2 : List PyVal) :
    dpProcessSeq tr (l1 ++ l2) =
      (do
        let a ← dpProcessSeq tr l1
        let b ← dpProcessSeq tr l2
        pure (a ++ b)) := by
  induction l1 with
  | nil =>
      simp only [List.nil_append, dpProcessSeq]
      cases dpProcessSeq tr l2 <;> rfl
  | cons v vs ih =>
      simp only [List.cons_append, dpProcessSeq, ih]
      cases dpProcess tr v with
      | error e => rfl
      | ok v1 =>
        cases dpProcessSeq tr vs with
        | error e => rfl
        | ok a =>
          cases dpProcessSeq tr l2 with
          | error e => rfl
          | ok b => rfl

theorem dpProcessLarge_eq_seq (tr : String → Except PyErr String) :
    ∀ (data : List PyVal), dpProcessLarge tr data = dpProcessSeq tr data
  | [] => by simp [dpProcessLarge, dpProcessSeq]
  | v :: vs => by
      have ih := dpProcessLarge_eq_seq tr ((v :: vs).drop dpChunkSize)
      rw [dpProcessLarge, ih]
      conv_rhs => rw [← List.take_append_drop dpChunkSize (v :: vs)]
      rw [dpProcessSeq_append]
termination_by data => data.length
decreasing_by
  simp only [List.length_drop, List.length_cons, dpChunkSize]
  omega

theorem dpProcessList_eq_seq (tr : String → Except PyErr String)
    (data : List PyVal) :
    dpProcessList tr data = dpProcessSeq tr data := by
  rw [dpProcessList]
  by_cases h : dpUsesChunking data
  · rw [if_pos h, dpProcessLarge_eq_seq]
  · rw [if_neg h]

theorem dpProcessSeq_eq_mapM (tr : String → Except PyErr String)
    (data : List PyVal) :
    dpProcessSeq tr data = data.mapM (dpProcess tr) := by
  induction data with
  | nil => rw [dpProcessSeq, List.mapM_nil]
  | cons v vs ih => rw [dpProcessSeq, List.mapM_cons, ih]

/-! Pure translation of every string leaf, and the list of string leaves
of a value: the specification-side shape that successful runs of
`DataProcessor.process` must produce. -/

mutual

/-- Replace every string leaf by its image under `f`. -/
def translateAllLeaves (f : String → String) : PyVal → PyVal
  | .str s => .str (f s)
  | .num n => .num n
  | .bool b => .bool b
  | .null => .null
  | .list items => .list (translateAllLeavesList f items)
  | .dict entries => .dict (translateAllLeavesDict f entries)
termination_by v => sizeOf v
decreasing_by
  all_goals simp_wf
  all_goals omega

/-- Leaf translation over the items of a sequence. -/
def translateAllLeavesList (f : String → String) : List PyVal → List PyVal
  | [] => []
  | v :: vs => translateAllLeaves f v :: translateAllLeavesList f vs
termination_by l => sizeOf l
decreasing_by
  all_goals simp_wf
  all_goals omega

/-- Leaf translation over the values of a mapping, keys untouched. -/
def translateAllLeavesDict (f : String → String) :
    List (String × PyVal) → List (String × PyVal)
  | [] => []
  | (k, v) :: kvs => (k, translateAllLeaves f v) :: translateAllLeavesDict f kvs
termination_by kvs => sizeOf kvs
decreasing_by
  all_goals simp_wf
  all_goals omega

end

mutual

/-- All string leaves of a value, in traversal order. -/
def stringLeaves : PyVal → List String
  | .str s => [s]
  | .num _ => []
  | .bool _ => []
  | .null => []
  | .list items => stringLeavesList items
  | .dict entries => stringLeavesDict entries
termination_by v => sizeOf v
decreasing_by
  all_goals simp_wf
  all_goals omega

/-- String leaves of the items of a sequence. -/
def stringLeavesList : List PyVal → List String
  | [] => []
  | v :: vs => stringLeaves v ++ stringLeavesList vs
termination_by l => sizeOf l
decreasing_by
  all_goals simp_wf
  all_goals omega

/-- String leaves of the values of a mapping. -/
def stringLeavesDict : List (String × PyVal) → List String
  | [] => []
  | (k, v) :: kvs => stringLeaves v ++ stringLeavesDict kvs
termination_by kvs => sizeOf kvs
decreasing_by
  all_goals simp_wf
  all_goals omega

end

/-- Totalization of a fallible leaf translator (used only to express the
value a fully successful run returns). -/
def trTotal (tr : String → Except PyErr String) (s : String) : String :=
  match tr s with
  | .ok t => t
  | .error _ => s

theorem exceptOk_iff {ε α : Type} (x : Except ε α) :
    exceptOk x = true ↔ ∃ a, x = .ok a := by
  cases x <;> simp [exceptOk]

/-- `NullTranslator.translate_text` (src/translation/null_translator.py):
returns its argument unchanged.  `DataProcessor` calls it with the correct
single argument. -/
def nullTranslateText (text : String) : Except PyErr String := .ok text

mutual

theorem dpProcess_null_id : ∀ (v : PyVal),
    dpProcess nullTranslateText v = .ok v
  | .str s => by rw [dpProcess]; rfl
  | .num n => by rw [dpProcess]; rfl
  | .bool b => by rw [dpProcess]; rfl
  | .null => by rw [dpProcess]; rfl
  | .list items => by
      rw [dpProcess, dpProcessList_eq_seq, dpProcessSeq_null_id items]
      rfl
  | .dict entries => by
      rw [dpProcess, dpProcessDict_null_id entries]
      rfl
termination_by v => sizeOf v
decreasing_by
  all_goals simp_wf
  all_goals omega

theorem dpProcessSeq_null_id : ∀ (l : List PyVal),
    dpProcessSeq nullTranslateText l = .ok l
  | [] => by rw [dpProcessSeq]; rfl
  | v :: vs => by
      rw [dpProcessSeq, dpProcess_null_id v, dpProcessSeq_null_id vs]
      rfl
termination_by l => sizeOf l
decreasing_by
  all_goals simp_wf
  all_goals omega

theorem dpProcessDict_null_id : ∀ (kvs : List (String × PyVal)),
    dpProcessDict nullTranslateText kvs = .ok kvs
  | [] => by rw [dpProcessDict]; rfl
  | (k, v) :: kvs => by
      rw [dpProcessDict, dpProcess_null_id v, dpProcessDict_null_id kvs]
      rfl
termination_by kvs => sizeOf kvs
decreasing_by
  all_goals simp_wf
  all_goals omega

end

mutual

theorem dpProcess_allOk (tr : String → Except PyErr String) :
    ∀ (v : PyVal), (∀ s ∈ stringLeaves v, exceptOk (tr s) = true) →
      dpProcess tr v = .ok (translateAllLeaves (trTotal tr) v)
  | .str s => fun h => by
      have hs : exceptOk (tr s) = true := by
        refine h s ?_
        rw [stringLeaves]
        exact List.mem_singleton.mpr rfl
      rcases (exceptOk_iff _).mp hs with ⟨t, ht⟩
      rw [dpProcess, translateAllLeaves]
      simp [ht, trTotal]
  | .num n => fun _ => by rw [dpProcess, translateAllLeaves]; rfl
  | .bool b => fun _ => by rw [dpProcess, translateAllLeaves]; rfl
  | .null => fun _ => by rw [dpProcess, translateAllLeaves]; rfl
  | .list items => fun h => by
      have hh : ∀ s ∈ stringLeavesList items, exceptOk (tr s) = true := by
        intro s hs
        refine h s ?_
        rw [stringLeaves]
        exact hs
      rw [dpProcess, dpProcessList_eq_seq, dpProcessSeq_allOk tr items hh,
        translateAllLeaves]
      rfl
  | .dict entries => fun h => by
      have hh : ∀ s ∈ stringLeavesDict entries, exceptOk (tr s) = true := by
        intro s hs
        refine h s ?_
        rw [stringLeaves]
        exact hs
      rw [dpProcess, dpProcessDict_allOk tr entries hh, translateAllLeaves]
      rfl
termination_by v => sizeOf v
decreasing_by
  all_goals simp_wf
  all_goals omega

theorem dpProcessSeq_allOk (tr : String → Except PyErr String) :
    ∀ (l : List PyVal), (∀ s ∈ stringLeavesList l, exceptOk (tr s) = true) →
      dpProcessSeq tr l = .ok (translateAllLeavesList (trTotal tr) l)
  | [] => fun _ => by rw [dpProcessSeq, translateAllLeavesList]; rfl
  | v :: vs => fun h => by
      have h1 : ∀ s ∈ stringLeaves v, exceptOk (tr s) = true := by
        intro s hs
        refine h s ?_
        rw [stringLeavesList]
        exact List.mem_append_left _ hs
      have h2 : ∀ s ∈ stringLeavesList vs, exceptOk (tr s) = true := by
        intro s hs
        refine h s ?_
        rw [stringLeavesList]
        exact List.mem_append_right _ hs
      rw [dpProcessSeq, dpProcess_allOk tr v h1, dpProcessSeq_allOk tr vs h2,
        translateAllLeavesList]
      rfl
termination_by l => sizeOf l
decreasing_by
  all_goals simp_wf
  all_goals omega

theorem dpProcessDict_allOk (tr : String → Except PyErr String) :
    ∀ (kvs : List (String × PyVal)),
      (∀ s ∈ stringLeavesDict kvs, exceptOk (tr s) = true) →
      dpProcessDict tr kvs = .ok (translateAllLeavesDict (trTotal tr) kvs)
  | [] => fun _ => by rw [dpProcessDict, translateAllLeavesDict]; rfl
  | (k, v) :: kvs => fun h => by
      have h1 : ∀ s ∈ stringLeaves v, exceptOk (tr s) = true := by
        intro s hs
        refine h s ?_
        rw [stringLeavesDict]
        exact List.mem_append_left _ hs
      have h2 : ∀ s ∈ stringLeavesDict kvs, exceptOk (tr s) = true := by
        intro s hs
        refine h s ?_
        rw [stringLeavesDict]
        exact List.mem_append_right _ hs
      rw [dpProcessDict, dpProcess_allOk tr v h1, dpProcessDict_allOk tr kvs h2,
        translateAllLeavesDict]
      rfl
termination_by kvs => sizeOf kvs
decreasing_by
  all_goals simp_wf
  all_goals omega

end

mutual

theorem dpProcess_ok_leaves (tr : String → Except PyErr String) :
    ∀ (v : PyVal), exceptOk (dpProcess tr v) = true →
      ∀ s ∈ stringLeaves v, exceptOk (tr s) = true
  | .str s => fun h => by
      intro s2 hs2
      rw [stringLeaves] at hs2
      rcases List.mem_singleton.mp hs2 with rfl
      rw [dpProcess] at h
      cases ht : tr s2 with
      | ok t => simp [exceptOk]
      | error e => rw [ht] at h; simp [exceptOk, Bind.bind, Except.bind, Functor.map, Except.map] at h
  | .num n => fun _ => by intro s hs; rw [stringLeaves] at hs; simp at hs
  | .bool b => fun _ => by intro s hs; rw [stringLeaves] at hs; simp at hs
  | .null => fun _ => by intro s hs; rw [stringLeaves] at hs; simp at hs
  | .list items => fun h => by
      intro s hs
      rw [stringLeaves] at hs
      rw [dpProcess, dpProcessList_eq_seq] at h
      have h2 : exceptOk (dpProcessSeq tr items) = true := by
        cases hq : dpProcessSeq tr items with
        | ok a => simp [exceptOk]
        | error e => rw [hq] at h; simp [exceptOk, Bind.bind, Except.bind, Functor.map, Except.map] at h
      exact dpProcessSeq_ok_leaves tr items h2 s hs
  | .dict entries => fun h => by
      intro s hs
      rw [stringLeaves] at hs
      rw [dpProcess] at h
      have h2 : exceptOk (dpProcessDict tr entries) = true := by
        cases hq : dpProcessDict tr entries with
        | ok a => simp [exceptOk]
        | error e => rw [hq] at h; simp [exceptOk, Bind.bind, Except.bind, Functor.map, Except.map] at h
      exact dpProcessDict_ok_leaves tr entries h2 s hs
termination_by v => sizeOf v
decreasing_by
  all_goals simp_wf
  all_goals omega

theorem dpProcessSeq_ok_leaves (tr : String → Except PyErr String) :
    ∀ (l : List PyVal), exceptOk (dpProcessSeq tr l) = true →
      ∀ s ∈ stringLeavesList l, exceptOk (tr s) = true
  | [] => fun _ => by intro s hs; rw [stringLeavesList] at hs; simp at hs
  | v :: vs => fun h => by
      intro s hs
      rw [stringLeavesList] at hs
      rw [dpProcessSeq] at h
      have hv : exceptOk (dpProcess tr v) = true := by
        cases hq : dpProcess tr v with
        | ok a => simp [exceptOk]
        | error e => rw [hq] at h; simp [exceptOk, Bind.bind, Except.bind, Functor.map, Except.map] at h
      have hvs : exceptOk (dpProcessSeq tr vs) = true := by
        rcases (exceptOk_iff _).mp hv with ⟨a, ha⟩
        rw [ha] at h
        cases hq : dpProcessSeq tr vs with
        | ok b => simp [exceptOk]
        | error e => rw [hq] at h; simp [exceptOk, Bind.bind, Except.bind, Functor.map, Except.map] at h
      rcases List.mem_append.mp hs with hs | hs
      · exact dpProcess_ok_leaves tr v hv s hs
      · exact dpProcessSeq_ok_leaves tr vs hvs s hs
termination_by l => sizeOf l
decreasing_by
  all_goals simp_wf
  all_goals omega

theorem dpProcessDict_ok_leaves (tr : String → Except PyErr String) :
    ∀ (kvs : List (String × PyVal)), exceptOk (dpProcessDict tr kvs) = true →
      ∀ s ∈ stringLeavesDict kvs, exceptOk (tr s) = true
  | [] => fun _ => by intro s hs; rw [stringLeavesDict] at hs; simp at hs
  | (k, v) :: kvs => fun h => by
      intro s hs
      rw [stringLeavesDict] at hs
      rw [dpProcessDict] at h
      have hv : exceptOk (dpProcess tr v) = true := by
        cases hq : dpProcess tr v with
        | ok a => simp [exceptOk]
        | error e => rw [hq] at h; simp [exceptOk, Bind.bind, Except.bind, Functor.map, Except.map] at h
      have hvs : exceptOk (dpProcessDict tr kvs) = true := by
        rcases (exceptOk_iff _).mp hv with ⟨a, ha⟩
        rw [ha] at h
        cases hq : dpProcessDict tr kvs with
        | ok b => simp [exceptOk]
        | error e => rw [hq] at h; simp [exceptOk, Bind.bind, Except.bind, Functor.map, Except.map] at h
      rcases List.mem_append.mp hs with hs | hs
      · exact dpProcess_ok_leaves tr v hv s hs
      · exact dpProcessDict_ok_leaves tr kvs hvs s hs
termination_by kvs => sizeOf kvs
decreasing_by
  all_goals simp_wf
  all_goals omega

end

/-- Inverting a successful `Except` bind. -/
theorem except_bind_ok_inv {ε α β : Type} {x : Except ε α} {f : α → Except ε β}
    {b : β} (h : x >>= f = .ok b) : ∃ a, x = .ok a ∧ f a = .ok b := by
  cases x with
  | ok a => exact ⟨a, rfl, h⟩
  | error e => simp [Bind.bind, Except.bind] at h

/-- Inverting a successful `Except` map. -/
theorem except_map_ok_inv {ε α β : Type} {x : Except ε α} {f : α → β}
    {b : β} (h : f <$> x = .ok b) : ∃ a, x = .ok a ∧ f a = b := by
  cases x with
  | ok a =>
      refine ⟨a, rfl, ?_⟩
      simpa [Functor.map, Except.map] using h
  | error e => simp [Functor.map, Except.map] at h

/-- Keys and positionwise values of a successful `_process_dict` run. -/
theorem dpProcessDict_keys_values (tr : String → Except PyErr String) :
    ∀ (d d2 : List (String × PyVal)), dpProcessDict tr d = .ok d2 →
      d2.map Prod.fst = d.map Prod.fst ∧
      ∀ (i : Nat) (h1 : i < d.length) (h2 : i < d2.length),
        dpProcess tr (d.get ⟨i, h1⟩).2 = .ok (d2.get ⟨i, h2⟩).2 := by
  intro d
  induction d with
  | nil =>
      intro d2 h
      rw [dpProcessDict] at h
      cases h
      exact ⟨rfl, fun i h1 _ => absurd h1 (by simp)⟩
  | cons kv kvs ih =>
      intro d2 h
      obtain ⟨k, v⟩ := kv
      rw [dpProcessDict] at h
      obtain ⟨v2, hv, h⟩ := except_bind_ok_inv h
      obtain ⟨kvs2, hvs, h⟩ := except_bind_ok_inv h
      have hd2 : d2 = (k, v2) :: kvs2 := by
        simpa [pure, Except.pure, eq_comm] using h
      subst hd2
      obtain ⟨ihk, ihv⟩ := ih kvs2 hvs
      constructor
      · simp [ihk]
      · intro i h1 h2
        cases i with
        | zero => simpa using hv
        | succ j =>
            exact ihv j (by simpa using h1) (by simpa using h2)

/-! ## Translator backends
(src/translation/null_translator.py, local_translator.py,
google_translator.py)

Every backend defines `async def translate_text(self, text)` — one
parameter besides `self`.  They are embedded as Python callables on an
argument list; an argument list whose length is not 1 raises `TypeError`
before the body runs, as in Python. -/

/-- `NullTranslator.translate_text(self, text)`: returns `text`. -/
def nullTranslatorText : List PyVal → Except PyErr PyVal
  | [v] => .ok v
  | _ => .error .typeError

/-- `LocalTranslator.translate_text(self, text)`: truncates `text` to 5000
characters and runs the argostranslate engine (abstracted as `engine`).
Slicing a non-string raises `TypeError`. -/
def localTranslatorText (engine : String → String) :
    List PyVal → Except PyErr PyVal
  | [.str t] => .ok (.str (engine (t.take 5000)))
  | [_] => .error .typeError
  | _ => .error .typeError

/-- `GoogleTranslatorWrapper.translate_text(self, text)`: runs the
deep-translator engine (abstracted as `engine`; its behaviour on a
non-string argument is outside the model). -/
def googleTranslatorText (engine : String → String) :
    List PyVal → Except PyErr PyVal
  | [.str t] => .ok (.str (engine t))
  | [_] => .error (.other "non-string argument")
  | _ => .error .typeError

/-! ## TranslationManager (src/translation/translator.py)

`TranslationManager.translate(data, target_lang)` dispatches on the type
of `data` and, on a string, calls `cls._translator.translate_text(data,
target_lang)` — two arguments (line 38). -/

/-- The exemption test of `TranslationManager._translate_dict` (line 45):
`if data.get('is_russian') and target_lang == 'ru': return data`. -/
def tmExempt (entries : List (String × PyVal)) (target : String) : Bool :=
  (match dictGet entries "is_russian" with
    | some v => pyTruthy v
    | none => false) && (target == "ru")

/-- The branch condition of `TranslationManager._translate_list`
(line 58): large lists get chunked processing. -/
def tmUsesChunking (data : List PyVal) : Bool :=
  data.length > 1000

/-- `chunk_size = 500` in `TranslationManager._process_large_list`. -/
def tmChunkSize : Nat := 500

mutual

/-- `TranslationManager.translate`: dispatch on the dynamic type of
`data`; a string is passed to the backend together with `target_lang`. -/
def tmTranslate (b : List PyVal → Except PyErr PyVal) (target : String) :
    PyVal → Except PyErr PyVal
  | .dict entries => do
      let entries2 ← tmTranslateDict b target entries
      pure (.dict entries2)
  | .list items => do
      let items2 ← tmTranslateList b target items
      pure (.list items2)
  | .str s => b [.str s, .str target]
  | .num n => pure (.num n)
  | .bool bb => pure (.bool bb)
  | .null => pure .null
termination_by v => (sizeOf v, 3)
decreasing_by
  all_goals simp_wf
  · exact Prod.Lex.left _ _ (by omega)
  · exact Prod.Lex.left _ _ (by omega)

/-- `TranslationManager._translate_dict`: whole-map exemption, else
gather over the values zipped back with the keys in original order. -/
def tmTranslateDict (b : List PyVal → Except PyErr PyVal) (target : String)
    (entries : List (String × PyVal)) :
    Except PyErr (List (String × PyVal)) :=
  if tmExempt entries target then pure entries
  else tmDictSeq b target entries
termination_by (sizeOf entries, 2)
decreasing_by
  · exact Prod.Lex.right _ (by omega)

/-- The gather over a dict's values in `_translate_dict`. -/
def tmDictSeq (b : List PyVal → Except PyErr PyVal) (target : String) :
    List (String × PyVal) → Except PyErr (List (String × PyVal))
  | [] => pure []
  | (k, v) :: kvs => do
      let v2 ← tmTranslate b target v
      let kvs2 ← tmDictSeq b target kvs
      pure ((k, v2) :: kvs2)
termination_by kvs => (sizeOf kvs, 0)
decreasing_by
  all_goals simp_wf
  · exact Prod.Lex.left _ _ (by omega)
  · exact Prod.Lex.left _ _ (by omega)

/-- `TranslationManager._translate_list`: lists longer than 1000 get
chunked processing, otherwise one gather over all items. -/
def tmTranslateList (b : List PyVal → Except PyErr PyVal) (target : String)
    (data : List PyVal) : Except PyErr (List PyVal) :=
  if tmUsesChunking data then tmProcessLarge b target data
  else tmSeq b target data
termination_by (sizeOf data, 2)
decreasing_by
  · exact Prod.Lex.right _ (by omega)
  · exact Prod.Lex.right _ (by omega)

/-- One `asyncio.gather([translate(item, target) for item in data])`. -/
def tmSeq (b : List PyVal → Except PyErr PyVal) (target : String) :
    List PyVal → Except PyErr (List PyVal)
  | [] => pure []
  | v :: vs => do
      let v2 ← tmTranslate b target v
      let vs2 ← tmSeq b target vs
      pure (v2 :: vs2)
termination_by data => (sizeOf data, 0)
decreasing_by
  all_goals simp_wf
  · exact Prod.Lex.left _ _ (by omega)
  · exact Prod.Lex.left _ _ (by omega)

/-- `TranslationManager._process_large_list`: 500-item chunks, results
extended in order. -/
def tmProcessLarge (b : List PyVal → Except PyErr PyVal) (target : String) :
    List PyVal → Except PyErr (List PyVal)
  | [] => pure []
  | v :: vs => do
      let chunk ← tmSeq b target ((v :: vs).take tmChunkSize)
      let rest ← tmProcessLarge b target ((v :: vs).drop tmChunkSize)
      pure (chunk ++ rest)
termination_by data => (sizeOf data, 1)
decreasing_by
  all_goals simp_wf
  · have h := sizeOf_list_take_le (α := PyVal) tmChunkSize (v :: vs)
    simp only [List.cons.sizeOf_spec] at h
    rcases lt_or_eq_of_le h with h | h
    · exact Prod.Lex.left _ _ h
    · rw [h]
      exact Prod.Lex.right _ (by omega)
  · have h : tmChunkSize = 499 + 1 := rfl
    rw [h, List.drop_succ_cons]
    have h2 := sizeOf_list_drop_le (α := PyVal) 499 vs
    exact Prod.Lex.left _ _ (by omega)

end

theorem tmSeq_append (b : List PyVal → Except PyErr PyVal) (target : String)
    (l1 l2 : List PyVal) :
    tmSeq b target (l1 ++ l2) =
      (do
        let a ← tmSeq b target l1
        let c ← tmSeq b target l2
        pure (a ++ c)) := by
  induction l1 with
  | nil =>
      simp only [List.nil_append, tmSeq]
      cases tmSeq b target l2 <;> rfl
  | cons v vs ih =>
      simp only [List.cons_append, tmSeq, ih]
      cases tmTranslate b target v with
      | error e => rfl
      | ok v1 =>
        cases tmSeq b target vs with
        | error e => rfl
        | ok a =>
          cases tmSeq b target l2 with
          | error e => rfl
          | ok c => rfl

theorem tmProcessLarge_eq_seq (b : List PyVal → Except PyErr PyVal)
    (target : String) :
    ∀ (data : List PyVal), tmProcessLarge b target data = tmSeq b target data
  | [] => by rw [tmProcessLarge, tmSeq]
  | v :: vs => by
      have ih := tmProcessLarge_eq_seq b target ((v :: vs).drop tmChunkSize)
      rw [tmProcessLarge, ih]
      conv_rhs => rw [← List.take_append_drop tmChunkSize (v :: vs)]
      rw [tmSeq_append]
termination_by data => data.length
decreasing_by
  simp only [List.length_drop, List.length_cons, tmChunkSize]
  omega

theorem tmTranslateList_eq_seq (b : List PyVal → Except PyErr PyVal)
    (target : String) (data : List PyVal) :
    tmTranslateList b target data = tmSeq b target data := by
  rw [tmTranslateList]
  by_cases h : tmUsesChunking data
  · rw [if_pos h, tmProcessLarge_eq_seq]
  · rw [if_neg h]

theorem tmSeq_eq_mapM (b : List PyVal → Except PyErr PyVal) (target : String)
    (data : List PyVal) :
    tmSeq b target data = data.mapM (tmTranslate b target) := by
  induction data with
  | nil => rw [tmSeq, List.mapM_nil]
  | cons v vs ih => rw [tmSeq, List.mapM_cons, ih]

/-- Keys and positionwise values of a successful `_translate_dict` gather. -/
theorem tmDictSeq_keys_values (b : List PyVal → Except PyErr PyVal)
    (target : String) :
    ∀ (d d2 : List (String × PyVal)), tmDictSeq b target d = .ok d2 →
      d2.map Prod.fst = d.map Prod.fst ∧
      ∀ (i : Nat) (h1 : i < d.length) (h2 : i < d2.length),
        tmTranslate b target (d.get ⟨i, h1⟩).2 = .ok (d2.get ⟨i, h2⟩).2 := by
  intro d
  induction d with
  | nil =>
      intro d2 h
      rw [tmDictSeq] at h
      cases h
      exact ⟨rfl, fun i h1 _ => absurd h1 (by simp)⟩
  | cons kv kvs ih =>
      intro d2 h
      obtain ⟨k, v⟩ := kv
      rw [tmDictSeq] at h
      obtain ⟨v2, hv, h⟩ := except_bind_ok_inv h
      obtain ⟨kvs2, hvs, h⟩ := except_bind_ok_inv h
      have hd2 : d2 = (k, v2) :: kvs2 := by
        simpa [pure, Except.pure, eq_comm] using h
      subst hd2
      obtain ⟨ihk, ihv⟩ := ih kvs2 hvs
      constructor
      · simp [ihk]
      · intro i h1 h2
        cases i with
        | zero => simpa using hv
        | succ j =>
            exact ihv j (by simpa using h1) (by simpa using h2)

/-! ## Reachable bare string leaves

A string leaf is *bare* (relative to the target language) when the
recursion of `TranslationManager.translate` reaches it: nothing inside a
dict exempted by the `is_russian` short-circuit is reached. -/

mutual

/-- Does `TranslationManager.translate` reach a string leaf inside `v`? -/
def hasBareStringLeaf (target : String) : PyVal → Bool
  | .str _ => true
  | .num _ => false
  | .bool _ => false
  | .null => false
  | .list items => hasBareStringLeafList target items
  | .dict entries =>
      if tmExempt entries target then false
      else hasBareStringLeafDict target entries
termination_by v => sizeOf v
decreasing_by
  all_goals simp_wf
  all_goals omega

/-- Bare string leaves inside a sequence. -/
def hasBareStringLeafList (target : String) : List PyVal → Bool
  | [] => false
  | v :: vs => hasBareStringLeaf target v || hasBareStringLeafList target vs
termination_by l => sizeOf l
decreasing_by
  all_goals simp_wf
  all_goals omega

/-- Bare string leaves among a mapping's values. -/
def hasBareStringLeafDict (target : String) : List (String × PyVal) → Bool
  | [] => false
  | (_, v) :: kvs =>
      hasBareStringLeaf target v || hasBareStringLeafDict target kvs
termination_by kvs => sizeOf kvs
decreasing_by
  all_goals simp_wf
  all_goals omega

end

/-- A backend whose 2-argument invocation always raises `TypeError`
(every one-parameter `translate_text` method does). -/
def twoArgCallFails (b : List PyVal → Except PyErr PyVal) : Prop :=
  ∀ (s t : String), b [.str s, .str t] = .error .typeError

mutual

theorem tmTranslate_typeError (b : List PyVal → Except PyErr PyVal)
    (target : String) (hb : twoArgCallFails b) :
    ∀ (v : PyVal),
      (hasBareStringLeaf target v = true →
        tmTranslate b target v = .error .typeError) ∧
      (hasBareStringLeaf target v = false → tmTranslate b target v = .ok v)
  | .str s => by
      constructor
      · intro _
        rw [tmTranslate]
        exact hb s target
      · intro h
        rw [hasBareStringLeaf] at h
        cases h
  | .num n => by
      refine ⟨fun h => ?_, fun _ => by rw [tmTranslate]; rfl⟩
      rw [hasBareStringLeaf] at h
      cases h
  | .bool bb => by
      refine ⟨fun h => ?_, fun _ => by rw [tmTranslate]; rfl⟩
      rw [hasBareStringLeaf] at h
      cases h
  | .null => by
      refine ⟨fun h => ?_, fun _ => by rw [tmTranslate]; rfl⟩
      rw [hasBareStringLeaf] at h
      cases h
  | .list items => by
      have ih := tmSeq_typeError b target hb items
      constructor
      · intro h
        rw [hasBareStringLeaf] at h
        rw [tmTranslate, tmTranslateList_eq_seq, ih.1 h]
        rfl
      · intro h
        rw [hasBareStringLeaf] at h
        rw [tmTranslate, tmTranslateList_eq_seq, ih.2 h]
        rfl
  | .dict entries => by
      have ih := tmDictSeq_typeError b target hb entries
      by_cases hex : tmExempt entries target
      · constructor
        · intro h
          rw [hasBareStringLeaf, if_pos hex] at h
          cases h
        · intro _
          rw [tmTranslate, tmTranslateDict, if_pos hex]
          rfl
      · constructor
        · intro h
          rw [hasBareStringLeaf, if_neg hex] at h
          rw [tmTranslate, tmTranslateDict, if_neg hex, ih.1 h]
          rfl
        · intro h
          rw [hasBareStringLeaf, if_neg hex] at h
          rw [tmTranslate, tmTranslateDict, if_neg hex, ih.2 h]
          rfl
termination_by v => sizeOf v
decreasing_by
  all_goals simp_wf
  all_goals omega

theorem tmSeq_typeError (b : List PyVal → Except PyErr PyVal)
    (target : String) (hb : twoArgCallFails b) :
    ∀ (l : List PyVal),
      (hasBareStringLeafList target l = true →
        tmSeq b target l = .error .typeError) ∧
      (hasBareStringLeafList target l = false → tmSeq b target l = .ok l)
  | [] => by
      refine ⟨fun h => ?_, fun _ => by rw [tmSeq]; rfl⟩
      rw [hasBareStringLeafList] at h
      cases h
  | v :: vs => by
      have ihv := tmTranslate_typeError b target hb v
      have ihvs := tmSeq_typeError b target hb vs
      constructor
      · intro h
        rw [hasBareStringLeafList] at h
        rw [tmSeq]
        rcases Bool.or_eq_true_iff.mp h with h1 | h2
        · rw [ihv.1 h1]
          rfl
        · cases hv : hasBareStringLeaf target v with
          | true => rw [ihv.1 hv]; rfl
          | false =>
              rw [ihv.2 hv, ihvs.1 h2]
              rfl
      · intro h
        rw [hasBareStringLeafList] at h
        rcases Bool.or_eq_false_iff.mp h with ⟨h1, h2⟩
        rw [tmSeq, ihv.2 h1, ihvs.2 h2]
        rfl
termination_by l => sizeOf l
decreasing_by
  all_goals simp_wf
  all_goals omega

theorem tmDictSeq_typeError (b : List PyVal → Except PyErr PyVal)
    (target : String) (hb : twoArgCallFails b) :
    ∀ (kvs : List (String × PyVal)),
      (hasBareStringLeafDict target kvs = true →
        tmDictSeq b target kvs = .error .typeError) ∧
      (hasBareStringLeafDict target kvs = false →
        tmDictSeq b target kvs = .ok kvs)
  | [] => by
      refine ⟨fun h => ?_, fun _ => by rw [tmDictSeq]; rfl⟩
      rw [hasBareStringLeafDict] at h
      cases h
  | (k, v) :: kvs => by
      have ihv := tmTranslate_typeError b target hb v
      have ihkvs := tmDictSeq_typeError b target hb kvs
      constructor
      · intro h
        rw [hasBareStringLeafDict] at h
        rw [tmDictSeq]
        rcases Bool.or_eq_true_iff.mp h with h1 | h2
        · rw [ihv.1 h1]
          rfl
        · cases hv : hasBareStringLeaf target v with
          | true => rw [ihv.1 hv]; rfl
          | false =>
              rw [ihv.2 hv, ihkvs.1 h2]
              rfl
      · intro h
        rw [hasBareStringLeafDict] at h
        rcases Bool.or_eq_false_iff.mp h with ⟨h1, h2⟩
        rw [tmDictSeq, ihv.2 h1, ihkvs.2 h2]
        rfl
termination_by kvs => sizeOf kvs
decreasing_by
  all_goals simp_wf
  all_goals omega

end

/-! ## Python string primitives

Structurally recursive embeddings of the Python string methods used by
the genre heuristics (`str.strip`, `str.title`, `str.replace`,
`str.lower`, `str.split(sep)[0]`), over ASCII inputs. -/

/-- One pass of Python `str.title()`: the first cased (alphabetic)
character of each maximal alphabetic run is uppercased, the rest are
lowercased; `prevCased` records whether the previous character was
cased. -/
def pyTitleAux : Bool → List Char → List Char
  | _, [] => []
  | prevCased, c :: cs =>
      let cased := c.isAlpha
      let c2 := if cased then (if prevCased then c.toLower else c.toUpper) else c
      c2 :: pyTitleAux cased cs

/-- Python `str.title()`. -/
def pyTitle (s : String) : String := (pyTitleAux false s.toList).asString

/-- Python `str.strip()` on a char list: drop whitespace at both ends. -/
def pyStripList (l : List Char) : List Char :=
  ((l.dropWhile Char.isWhitespace).reverse.dropWhile Char.isWhitespace).reverse

/-- Python `str.strip()`. -/
def pyStrip (s : String) : String := (pyStripList s.toList).asString

/-- Does `p` start the list `l`? -/
def listStartsWith : List Char → List Char → Bool
  | [], _ => true
  | _ :: _, [] => false
  | p :: ps, c :: cs => (p == c) && listStartsWith ps cs

/-- Python `str.replace(pat, rep)`: all non-overlapping occurrences,
left to right; `fuel` bounds the scan (callers pass the input length,
which suffices for a non-empty pattern). -/
def pyReplaceAux (pat rep : List Char) : Nat → List Char → List Char
  | 0, s => s
  | _ + 1, [] => []
  | fuel + 1, c :: cs =>
      if listStartsWith pat (c :: cs) then
        rep ++ pyReplaceAux pat rep fuel ((c :: cs).drop pat.length)
      else c :: pyReplaceAux pat rep fuel cs

/-- Python `str.replace(pat, rep)` for a non-empty pattern. -/
def pyReplace (s pat rep : String) : String :=
  (pyReplaceAux pat.toList rep.toList s.toList.length s.toList).asString

/-- Python `str.lower()`. -/
def pyLower (s : String) : String := (s.toList.map Char.toLower).asString

/-- Python `s.split(sep)[0]` for a one-character separator. -/
def pyTakeUntil (sep : Char) (s : String) : String :=
  (s.toList.takeWhile (fun c => c != sep)).asString

/-! ## Genre normalization heuristics
(src/parsers/openlib_parser.py `_normalize_genre`, lines 377-397, and
src/parsers/google_parser.py `_normalize_genre`, lines 246-253) -/

/-- The `removals` list of the OpenLibrary `_normalize_genre`. -/
def olGenreRemovals : List String :=
  ["fiction", "literature", "books", "stories", "printed"]

/-- The `genre_mappings` table lookup `genre_mappings.get(genre, genre)`
of the OpenLibrary `_normalize_genre`. -/
def olGenreMappingTable (g : String) : String :=
  if g = "Sci-fi" then "Science Fiction"
  else if g = "Sci Fi" then "Science Fiction"
  else if g = "Sf" then "Science Fiction"
  else if g = "Fantasy Fiction" then "Fantasy"
  else if g = "Mystery And Suspense Fiction" then "Mystery"
  else g

/-- `OpenLibraryParser._normalize_genre`: falsy input gives `None`; else
`genre.strip().title()`, then each removal string is replaced away (and
the result stripped), then the mapping table is applied. -/
def olNormalizeGenre (genre : String) : Option String :=
  if genre = "" then none
  else
    let g1 := pyTitle (pyStrip genre)
    let g2 := olGenreRemovals.foldl (fun acc r => pyStrip (pyReplace acc r "")) g1
    some (olGenreMappingTable g2)

/-- `GoogleBooksParser._normalize_genre`: falsy input gives `None`; else
`genre.strip().title()`; if the lowercase form is "fiction"/"nonfiction"
return `genre.title()`, else `genre.split('/')[0].split('&')[0].strip()`. -/
def gNormalizeGenre (genre : String) : Option String :=
  if genre = "" then none
  else
    let g1 := pyTitle (pyStrip genre)
    if pyLower g1 = "fiction" || pyLower g1 = "nonfiction" then some (pyTitle g1)
    else some (pyStrip (pyTakeUntil '&' (pyTakeUntil '/' g1)))

/-! ## Normalizer data model

Entities carry the fields the claims speak about: identity (`id`, minted
fresh at normalization time — `uuid.uuid4()` modelled as a counter),
dedup keys (`name`), `title`, and the genre's pre-normalization
`original_name`.  Attribute-only fields of the Python dicts (summary,
language, isbn, cover url, …) are derived per-record by pure helpers and
play no role in any claim, so they are elided. -/

structure Author where
  id : Nat
  name : String
deriving DecidableEq, Repr

structure Genre where
  id : Nat
  name : String
  original_name : String
deriving DecidableEq, Repr

structure GGenre where
  id : Nat
  name : String
deriving DecidableEq, Repr

structure OLBook where
  id : Nat
  title : String
deriving DecidableEq, Repr

structure GBook where
  id : Nat
  title : Option String
deriving DecidableEq, Repr

structure BookAuthor where
  book_id : Nat
  author_id : Nat
deriving DecidableEq, Repr

structure BookGenre where
  book_id : Nat
  genre_id : Nat
deriving DecidableEq, Repr

/-- A raw OpenLibrary record as consumed by `_structure_data`:
`title := none` models a missing key.  (The `author_key` list feeds only
the elided `Author.key`/`source_url` attributes.) -/
structure OLRawRecord where
  title : Option String
  author_name : List String
  subject : List String
deriving DecidableEq, Repr

/-- A raw Google Books record as consumed by `get_all_structured_data`;
`_parse_book_item` always emits the `title` key but its value may be
`None` (`volume_info.get('title')`). -/
structure GRawRecord where
  title : Option String
  authors : List String
  categories : List String
deriving DecidableEq, Repr

/-! ## OpenLibrary `_structure_data`
(src/parsers/openlib_parser.py, lines 176-258) -/

structure OLState where
  authors : List Author
  genres : List Genre
  books : List OLBook
  book_authors : List BookAuthor
  book_genres : List BookGenre
  seen_authors : List String
  seen_genres : List String
  nextId : Nat
deriving DecidableEq, Repr

def olInit : OLState := ⟨[], [], [], [], [], [], [], 0⟩

/-- Python truthiness of an optional string (`if not x:` semantics on a
value that may be absent/None): falsy iff missing or empty. -/
def optStrTruthy : Option String → Bool
  | none => false
  | some s => s != ""

/-- The author loop body: skip falsy names; mint an `Author` on first
appearance (recorded in `seen_authors`), else look its id up with
`next(a['id'] for a in authors if a['name'] == author_name)`; always
append a `BookAuthor` link row. -/
def olProcessAuthor (bookId : Nat) (st : OLState) (name : String) : OLState :=
  if name = "" then st
  else if name ∈ st.seen_authors then
    let aid :=
      match st.authors.find? (fun a => a.name == name) with
      | some a => a.id
      | none => 0
    { st with book_authors := st.book_authors ++ [⟨bookId, aid⟩] }
  else
    let aid := st.nextId
    { st with
      authors := st.authors ++ [⟨aid, name⟩]
      seen_authors := name :: st.seen_authors
      nextId := st.nextId + 1
      book_authors := st.book_authors ++ [⟨bookId, aid⟩] }

/-- The genre loop body: normalize the subject; skip falsy results; mint
a `Genre` (keeping the raw subject as `original_name`) on first
appearance, else look its id up; always append a `BookGenre` link row. -/
def olProcessGenre (bookId : Nat) (st : OLState) (subject : String) : OLState :=
  match olNormalizeGenre subject with
  | none => st
  | some g =>
    if g = "" then st
    else if g ∈ st.seen_genres then
      let gid :=
        match st.genres.find? (fun x => x.name == g) with
        | some x => x.id
        | none => 0
      { st with book_genres := st.book_genres ++ [⟨bookId, gid⟩] }
    else
      let gid := st.nextId
      { st with
        genres := st.genres ++ [⟨gid, g, subject⟩]
        seen_genres := g :: st.seen_genres
        nextId := st.nextId + 1
        book_genres := st.book_genres ++ [⟨bookId, gid⟩] }

/-- One iteration of the record loop of `_structure_data`: records with
a falsy title are skipped with no side effects; otherwise the `Book` is
appended first, then its authors and subjects are processed. -/
def olProcessRecord (st : OLState) (r : OLRawRecord) : OLState :=
  if optStrTruthy r.title then
    let bookId := st.nextId
    let st1 := { st with
      books := st.books ++ [⟨bookId, r.title.getD ""⟩]
      nextId := st.nextId + 1 }
    let st2 := r.author_name.foldl (olProcessAuthor bookId) st1
    r.subject.foldl (olProcessGenre bookId) st2
  else st

/-- `OpenLibraryParser._structure_data`. -/
def olStructureData (records : List OLRawRecord) : OLState :=
  records.foldl olProcessRecord olInit

/-! ## Google Books `get_all_structured_data`
(src/parsers/google_parser.py, lines 29-96) -/

structure GState where
  authors : List Author
  genres : List GGenre
  books : List GBook
  book_authors : List BookAuthor
  book_genres : List BookGenre
  seen_authors : List String
  seen_genres : List String
  nextId : Nat
deriving DecidableEq, Repr

def gInit : GState := ⟨[], [], [], [], [], [], [], 0⟩

/-- The author loop body of the Google normalizer: no empty-name skip;
mint on first appearance; always append a link row whose id is found by
`next(a['id'] for a in authors if a['name'] == author_name)`. -/
def gProcessAuthor (bookId : Nat) (st : GState) (name : String) : GState :=
  let st1 :=
    if name ∈ st.seen_authors then st
    else
      { st with
        authors := st.authors ++ [⟨st.nextId, name⟩]
        seen_authors := name :: st.seen_authors
        nextId := st.nextId + 1 }
  let aid :=
    match st1.authors.find? (fun a => a.name == name) with
    | some a => a.id
    | none => 0
  { st1 with book_authors := st1.book_authors ++ [⟨bookId, aid⟩] }

/-- The genre loop body of the Google normalizer: mint when the
normalized name is truthy and unseen; append a link row whenever the
normalized name is truthy. -/
def gProcessGenre (bookId : Nat) (st : GState) (catName : String) : GState :=
  match gNormalizeGenre catName with
  | none => st
  | some g =>
    if g = "" then st
    else
      let st1 :=
        if g ∈ st.seen_genres then st
        else
          { st with
            genres := st.genres ++ [⟨st.nextId, g⟩]
            seen_genres := g :: st.seen_genres
            nextId := st.nextId + 1 }
      let gid :=
        match st1.genres.find? (fun x => x.name == g) with
        | some x => x.id
        | none => 0
      { st1 with book_genres := st1.book_genres ++ [⟨bookId, gid⟩] }

/-- One iteration of the record loop of `get_all_structured_data`: a
`Book` is appended for every record — there is no title check. -/
def gProcessRecord (st : GState) (r : GRawRecord) : GState :=
  let bookId := st.nextId
  let st1 := { st with
    books := st.books ++ [⟨bookId, r.title⟩]
    nextId := st.nextId + 1 }
  let st2 := r.authors.foldl (gProcessAuthor bookId) st1
  r.categories.foldl (gProcessGenre bookId) st2

/-- `GoogleBooksParser.get_all_structured_data` (the structuring loop on
already-fetched raw records). -/
def gStructureData (records : List GRawRecord) : GState :=
  records.foldl gProcessRecord gInit

/-! ## OpenLibrary `_parse_book_item`
(src/parsers/openlib_parser.py, lines 137-174) -/

/-- An OpenLibrary search document, restricted to the fields that decide
whether the parsed record survives normalization; `title := none` models
a document without a `title` key (so `doc.get('title', 'Untitled')`
falls back), while `some ""` is an explicitly empty title value. -/
structure OLDoc where
  title : Option String
  author_name : List String
  subject : List String
  subject_people : List String
  subject_places : List String
deriving DecidableEq, Repr

/-- `_get_subjects`: concatenation of the three subject fields. -/
def olGetSubjects (doc : OLDoc) : List String :=
  doc.subject ++ doc.subject_people ++ doc.subject_places

/-- `_parse_book_item`, restricted to the record fields the normalizer's
identity logic reads: `'title': doc.get('title', 'Untitled')`,
`'author_name': doc.get('author_name', [])`, and the subjects. -/
def olParseBookItem (doc : OLDoc) : OLRawRecord :=
  { title := some (doc.title.getD "Untitled")
    author_name := doc.author_name
    subject := olGetSubjects doc }

/-! ## Normalizer proof machinery -/

/-- Folding a step that ignores elements failing `p` is folding over the
filtered list. -/
theorem foldl_skip_filter {α β : Type} (step : β → α → β) (p : α → Bool)
    (h : ∀ st a, p a = false → step st a = st) :
    ∀ (l : List α) (st : β), l.foldl step st = (l.filter p).foldl step st := by
  intro l
  induction l with
  | nil => intro st; rfl
  | cons a l ih =>
      intro st
      by_cases hp : p a = true
      · simp [List.filter_cons, hp, List.foldl_cons, ih]
      · have hp2 : p a = false := by
          cases hq : p a
          · rfl
          · exact absurd hq hp
        simp [List.filter_cons, hp2, List.foldl_cons, ih, h st a hp2]

/-- Specification-side: the author names a run of the OpenLibrary author
loop appends, in order of first appearance, skipping falsy names, given
the names already seen. -/
def olNewAuthorNames (seen : List String) : List String → List String
  | [] => []
  | n :: ns =>
      if n = "" then olNewAuthorNames seen ns
      else if n ∈ seen then olNewAuthorNames seen ns
      else n :: olNewAuthorNames (n :: seen) ns

/-- Specification-side: the seen-set contents after a run of the
OpenLibrary author loop. -/
def olSeenAfter (seen : List String) : List String → List String
  | [] => seen
  | n :: ns =>
      if n = "" then olSeenAfter seen ns
      else if n ∈ seen then olSeenAfter seen ns
      else olSeenAfter (n :: seen) ns

/-- Specification-side: the author names the Google author loop appends
(no falsy-name skip). -/
def gNewAuthorNames (seen : List String) : List String → List String
  | [] => []
  | n :: ns =>
      if n ∈ seen then gNewAuthorNames seen ns
      else n :: gNewAuthorNames (n :: seen) ns

/-- What one OpenLibrary author-loop iteration does, as one statement:
frame conditions, monotone growth, dedup bookkeeping, and the appended
link row's provenance. -/
theorem olProcessAuthor_step (bid : Nat) (st : OLState) (name : String)
    (hseen : ∀ n, n ∈ st.seen_authors ↔ n ∈ st.authors.map (fun a => a.name))
    (hnodup : (st.authors.map (fun a => a.name)).Nodup)
    (hidn : (st.authors.map (fun a => a.id)).Nodup)
    (hidb : ∀ a ∈ st.authors, a.id < st.nextId) :
    let st2 := olProcessAuthor bid st name
    st2.books = st.books ∧
    st2.genres = st.genres ∧
    st2.seen_genres = st.seen_genres ∧
    st2.book_genres = st.book_genres ∧
    st.nextId ≤ st2.nextId ∧
    (∃ d, st2.authors = st.authors ++ d) ∧
    (∃ d, st2.book_authors = st.book_authors ++ d) ∧
    (∀ n, n ∈ st2.seen_authors ↔ n ∈ st2.authors.map (fun a => a.name)) ∧
    (st2.authors.map (fun a => a.name)).Nodup ∧
    (st2.authors.map (fun a => a.id)).Nodup ∧
    (∀ a ∈ st2.authors, a.id < st2.nextId) ∧
    st2.authors.map (fun a => a.name) =
      st.authors.map (fun a => a.name) ++ olNewAuthorNames st.seen_authors [name] ∧
    st2.seen_authors =
      (if name = "" ∨ name ∈ st.seen_authors then st.seen_authors
       else name :: st.seen_authors) ∧
    (∀ row ∈ st2.book_authors, row ∈ st.book_authors ∨
      (row.book_id = bid ∧ ∃ a ∈ st2.authors,
        a.id = row.author_id ∧ a.name = name ∧ name ≠ "")) ∧
    st2.book_authors.length =
      st.book_authors.length + (if name = "" then 0 else 1) := by
  intro st2
  by_cases h0 : name = ""
  · have hst2 : st2 = st := by
      simp [st2, olProcessAuthor, h0]
    rw [hst2]
    refine ⟨rfl, rfl, rfl, rfl, le_refl _, ⟨[], by simp⟩, ⟨[], by simp⟩,
      hseen, hnodup, hidn, hidb, ?_, ?_, ?_, ?_⟩
    · simp [olNewAuthorNames, h0]
    · simp [h0]
    · intro row hrow
      exact Or.inl hrow
    · simp [h0]
  · by_cases h1 : name ∈ st.seen_authors
    · -- seen: look the id up, append one link row
      have hex : ∃ a ∈ st.authors, (a.name == name) = true := by
        have := (hseen name).mp h1
        rcases List.mem_map.mp this with ⟨a, ha, haname⟩
        exact ⟨a, ha, by simp [haname]⟩
      have hfind : (st.authors.find? (fun a => a.name == name)).isSome := by
        rw [List.find?_isSome]
        exact hex
      rcases Option.isSome_iff_exists.mp hfind with ⟨a0, ha0⟩
      have ha0mem : a0 ∈ st.authors := List.mem_of_find?_eq_some ha0
      have ha0name : a0.name = name := by
        have := List.find?_some ha0
        simpa using this
      have hst2 : st2 = { st with
          book_authors := st.book_authors ++ [⟨bid, a0.id⟩] } := by
        simp [st2, olProcessAuthor, h0, h1, ha0]
      rw [hst2]
      refine ⟨rfl, rfl, rfl, rfl, le_refl _, ⟨[], by simp⟩,
        ⟨[⟨bid, a0.id⟩], rfl⟩, hseen, hnodup, hidn, hidb, ?_, ?_, ?_, ?_⟩
      · simp [olNewAuthorNames, h0, h1]
      · simp [h0, h1]
      · intro row hrow
        rcases List.mem_append.mp hrow with hrow | hrow
        · exact Or.inl hrow
        · rcases List.mem_singleton.mp hrow with rfl
          exact Or.inr ⟨rfl, a0, ha0mem, rfl, ha0name, h0⟩
      · simp [h0]
    · -- unseen: mint a fresh Author, then append the link row
      have hst2 : st2 = { st with
          authors := st.authors ++ [⟨st.nextId, name⟩]
          seen_authors := name :: st.seen_authors
          nextId := st.nextId + 1
          book_authors := st.book_authors ++ [⟨bid, st.nextId⟩] } := by
        simp [st2, olProcessAuthor, h0, h1]
      rw [hst2]
      have hnotmem : name ∉ st.authors.map (fun a => a.name) := by
        intro hmem
        exact h1 ((hseen name).mpr hmem)
      refine ⟨rfl, rfl, rfl, rfl, Nat.le_succ _, ⟨[⟨st.nextId, name⟩], rfl⟩,
        ⟨[⟨bid, st.nextId⟩], rfl⟩, ?_, ?_, ?_, ?_, ?_, ?_, ?_, ?_⟩
      · intro n
        simp only [List.mem_cons, List.map_append, List.mem_append]
        constructor
        · rintro (rfl | hn)
          · right; simp
          · left; exact (hseen n).mp hn
        · rintro (hn | hn)
          · right; exact (hseen n).mpr hn
          · left; simpa using hn
      · simp only [List.map_append]
        rw [List.nodup_append]
        refine ⟨hnodup, by simp, ?_⟩
        intro x hx
        simp only [List.map_cons, List.map_nil, List.mem_singleton]
        intro hx2
        rw [hx2] at hx
        exact hnotmem hx
      · simp only [List.map_append]
        rw [List.nodup_append]
        refine ⟨hidn, by simp, ?_⟩
        intro x hx
        simp only [List.map_cons, List.map_nil, List.mem_singleton]
        intro hx2
        rcases List.mem_map.mp hx with ⟨a, ha, rfl⟩
        have := hidb a ha
        omega
      · intro a ha
        rcases List.mem_append.mp ha with ha | ha
        · exact Nat.lt_succ_of_lt (hidb a ha)
        · rcases List.mem_singleton.mp ha with rfl
          exact Nat.lt_succ_self _
      · simp [olNewAuthorNames, h0, h1]
      · simp [h0, h1]
      · intro row hrow
        rcases List.mem_append.mp hrow with hrow | hrow
        · exact Or.inl hrow
        · rcases List.mem_singleton.mp hrow with rfl
          refine Or.inr ⟨rfl, ⟨st.nextId, name⟩, ?_, rfl, rfl, h0⟩
          exact List.mem_append_right _ (List.mem_singleton.mpr rfl)
      · simp [h0]

/-- The whole author loop of one record, by induction over the name
list, chaining `olProcessAuthor_step`. -/
theorem olAuthorFold (bid : Nat) :
    ∀ (names : List String) (st : OLState),
    (∀ n, n ∈ st.seen_authors ↔ n ∈ st.authors.map (fun a => a.name)) →
    (st.authors.map (fun a => a.name)).Nodup →
    (st.authors.map (fun a => a.id)).Nodup →
    (∀ a ∈ st.authors, a.id < st.nextId) →
    let st2 := names.foldl (olProcessAuthor bid) st
    st2.books = st.books ∧
    st2.genres = st.genres ∧
    st2.seen_genres = st.seen_genres ∧
    st2.book_genres = st.book_genres ∧
    st.nextId ≤ st2.nextId ∧
    (∃ d, st2.authors = st.authors ++ d) ∧
    (∃ d, st2.book_authors = st.book_authors ++ d) ∧
    (∀ n, n ∈ st2.seen_authors ↔ n ∈ st2.authors.map (fun a => a.name)) ∧
    (st2.authors.map (fun a => a.name)).Nodup ∧
    (st2.authors.map (fun a => a.id)).Nodup ∧
    (∀ a ∈ st2.authors, a.id < st2.nextId) ∧
    st2.authors.map (fun a => a.name) =
      st.authors.map (fun a => a.name) ++ olNewAuthorNames st.seen_authors names ∧
    st2.seen_authors = olSeenAfter st.seen_authors names ∧
    (∀ row ∈ st2.book_authors, row ∈ st.book_authors ∨
      (row.book_id = bid ∧ ∃ a ∈ st2.authors,
        a.id = row.author_id ∧ a.name ∈ names ∧ a.name ≠ "")) ∧
    st2.book_authors.length =
      st.book_authors.length + (names.filter (fun n => n != "")).length := by
  intro names
  induction names with
  | nil =>
      intro st hseen hnodup hidn hidb st2
      have hst2 : st2 = st := rfl
      rw [hst2]
      refine ⟨rfl, rfl, rfl, rfl, le_refl _, ⟨[], by simp⟩, ⟨[], by simp⟩,
        hseen, hnodup, hidn, hidb, by simp [olNewAuthorNames],
        by simp [olSeenAfter], ?_, by simp⟩
      intro row hrow
      exact Or.inl hrow
  | cons n ns ih =>
      intro st hseen hnodup hidn hidb st2
      obtain ⟨hb1, hg1, hsg1, hbg1, hn1, ⟨da1, hda1⟩, ⟨dba1, hdba1⟩, hseen1,
        hnodup1, hidn1, hidb1, hnames1, hseeneq1, hrows1, hlen1⟩ :=
        olProcessAuthor_step bid st n hseen hnodup hidn hidb
      set st1 := olProcessAuthor bid st n with hst1
      obtain ⟨hb2, hg2, hsg2, hbg2, hn2, ⟨da2, hda2⟩, ⟨dba2, hdba2⟩, hseen2,
        hnodup2, hidn2, hidb2, hnames2, hseeneq2, hrows2, hlen2⟩ :=
        ih st1 hseen1 hnodup1 hidn1 hidb1
      set stf := ns.foldl (olProcessAuthor bid) st1 with hstf
      have hfold : st2 = stf := by
        simp [st2, List.foldl_cons, hst1, hstf]
      rw [hfold]
      refine ⟨hb2.trans hb1, hg2.trans hg1, hsg2.trans hsg1, hbg2.trans hbg1,
        le_trans hn1 hn2, ⟨da1 ++ da2, by rw [hda2, hda1, List.append_assoc]⟩,
        ⟨dba1 ++ dba2, by rw [hdba2, hdba1, List.append_assoc]⟩,
        hseen2, hnodup2, hidn2, hidb2, ?_, ?_, ?_, ?_⟩
      · rw [hnames2, hnames1, hseeneq1, List.append_assoc]
        by_cases h0 : n = ""
        · simp [olNewAuthorNames, h0]
        · by_cases h1 : n ∈ st.seen_authors
          · simp [olNewAuthorNames, h0, h1]
          · simp [olNewAuthorNames, h0, h1]
      · rw [hseeneq2, hseeneq1]
        by_cases h0 : n = ""
        · simp [olSeenAfter, h0]
        · by_cases h1 : n ∈ st.seen_authors
          · simp [olSeenAfter, h0, h1]
          · simp [olSeenAfter, h0, h1]
      · intro row hrow
        rcases hrows2 row hrow with hrow1 | ⟨hbid, a, ha, haid, haname, hane⟩
        · rcases hrows1 row hrow1 with hrow0 | ⟨hbid, a, ha, haid, haname, hane⟩
          · exact Or.inl hrow0
          · refine Or.inr ⟨hbid, a, ?_, haid, ?_, ?_⟩
            · rw [hda2]
              exact List.mem_append_left _ ha
            · rw [haname]
              exact List.mem_cons_self _ _
            · rw [haname]
              exact hane
        · exact Or.inr ⟨hbid, a, ha, haid, List.mem_cons_of_mem _ haname, hane⟩
      · rw [hlen2, hlen1]
        by_cases h0 : n = ""
        · simp [List.filter_cons, h0]
        · have hne : (n != "") = true := by simp [h0]
          simp only [List.filter_cons, hne, if_true, List.length_cons, h0,
            if_false, ite_false]
          omega

/-- What one OpenLibrary genre-loop iteration does: frame conditions,
monotone growth, dedup bookkeeping, and the appended link row's
provenance. -/
theorem olProcessGenre_step (bid : Nat) (st : OLState) (subject : String)
    (hseen : ∀ n, n ∈ st.seen_genres ↔ n ∈ st.genres.map (fun g => g.name))
    (hnodup : (st.genres.map (fun g => g.name)).Nodup)
    (hidn : (st.genres.map (fun g => g.id)).Nodup)
    (hidb : ∀ g ∈ st.genres, g.id < st.nextId) :
    let st2 := olProcessGenre bid st subject
    st2.books = st.books ∧
    st2.authors = st.authors ∧
    st2.seen_authors = st.seen_authors ∧
    st2.book_authors = st.book_authors ∧
    st.nextId ≤ st2.nextId ∧
    (∃ d, st2.genres = st.genres ++ d) ∧
    (∃ d, st2.book_genres = st.book_genres ++ d) ∧
    (∀ n, n ∈ st2.seen_genres ↔ n ∈ st2.genres.map (fun g => g.name)) ∧
    (st2.genres.map (fun g => g.name)).Nodup ∧
    (st2.genres.map (fun g => g.id)).Nodup ∧
    (∀ g ∈ st2.genres, g.id < st2.nextId) ∧
    (∀ row ∈ st2.book_genres, row ∈ st.book_genres ∨
      (row.book_id = bid ∧ ∃ g ∈ st2.genres, g.id = row.genre_id ∧
        olNormalizeGenre subject = some g.name ∧ g.name ≠ "")) ∧
    st2.book_genres.length =
      st.book_genres.length +
        (if optStrTruthy (olNormalizeGenre subject) then 1 else 0) := by
  intro st2
  cases hng : olNormalizeGenre subject with
  | none =>
      have hst2 : st2 = st := by
        simp [st2, olProcessGenre, hng]
      rw [hst2]
      refine ⟨rfl, rfl, rfl, rfl, le_refl _, ⟨[], by simp⟩, ⟨[], by simp⟩,
        hseen, hnodup, hidn, hidb, ?_, by simp [optStrTruthy, hng]⟩
      intro row hrow
      exact Or.inl hrow
  | some g =>
      by_cases h0 : g = ""
      · have hst2 : st2 = st := by
          simp [st2, olProcessGenre, hng, h0]
        rw [hst2]
        refine ⟨rfl, rfl, rfl, rfl, le_refl _, ⟨[], by simp⟩, ⟨[], by simp⟩,
          hseen, hnodup, hidn, hidb, ?_, by simp [optStrTruthy, hng, h0]⟩
        intro row hrow
        exact Or.inl hrow
      · by_cases h1 : g ∈ st.seen_genres
        · have hex : ∃ x ∈ st.genres, (x.name == g) = true := by
            have := (hseen g).mp h1
            rcases List.mem_map.mp this with ⟨x, hx, hxname⟩
            exact ⟨x, hx, by simp [hxname]⟩
          have hfind : (st.genres.find? (fun x => x.name == g)).isSome := by
            rw [List.find?_isSome]
            exact hex
          rcases Option.isSome_iff_exists.mp hfind with ⟨g0, hg0⟩
          have hg0mem : g0 ∈ st.genres := List.mem_of_find?_eq_some hg0
          have hg0name : g0.name = g := by
            have := List.find?_some hg0
            simpa using this
          have hst2 : st2 = { st with
              book_genres := st.book_genres ++ [⟨bid, g0.id⟩] } := by
            simp [st2, olProcessGenre, hng, h0, h1, hg0]
          rw [hst2]
          refine ⟨rfl, rfl, rfl, rfl, le_refl _, ⟨[], by simp⟩,
            ⟨[⟨bid, g0.id⟩], rfl⟩, hseen, hnodup, hidn, hidb, ?_,
            by simp [optStrTruthy, hng, h0]⟩
          intro row hrow
          rcases List.mem_append.mp hrow with hrow | hrow
          · exact Or.inl hrow
          · rcases List.mem_singleton.mp hrow with rfl
            refine Or.inr ⟨rfl, g0, hg0mem, rfl, ?_, ?_⟩
            · rw [hg0name]
            · rw [hg0name]
              exact h0
        · have hst2 : st2 = { st with
              genres := st.genres ++ [⟨st.nextId, g, subject⟩]
              seen_genres := g :: st.seen_genres
              nextId := st.nextId + 1
              book_genres := st.book_genres ++ [⟨bid, st.nextId⟩] } := by
            simp [st2, olProcessGenre, hng, h0, h1]
          rw [hst2]
          have hnotmem : g ∉ st.genres.map (fun x => x.name) := by
            intro hmem
            exact h1 ((hseen g).mpr hmem)
          refine ⟨rfl, rfl, rfl, rfl, Nat.le_succ _,
            ⟨[⟨st.nextId, g, subject⟩], rfl⟩, ⟨[⟨bid, st.nextId⟩], rfl⟩,
            ?_, ?_, ?_, ?_, ?_, by simp [optStrTruthy, hng, h0]⟩
          · intro n
            simp only [List.mem_cons, List.map_append, List.mem_append]
            constructor
            · rintro (rfl | hn)
              · right; simp
              · left; exact (hseen n).mp hn
            · rintro (hn | hn)
              · right; exact (hseen n).mpr hn
              · left; simpa using hn
          · simp only [List.map_append]
            rw [List.nodup_append]
            refine ⟨hnodup, by simp, ?_⟩
            intro x hx
            simp only [List.map_cons, List.map_nil, List.mem_singleton]
            intro hx2
            rw [hx2] at hx
            exact hnotmem hx
          · simp only [List.map_append]
            rw [List.nodup_append]
            refine ⟨hidn, by simp, ?_⟩
            intro x hx
            simp only [List.map_cons, List.map_nil, List.mem_singleton]
            intro hx2
            rcases List.mem_map.mp hx with ⟨x2, hx2m, rfl⟩
            have := hidb x2 hx2m
            omega
          · intro x hx
            rcases List.mem_append.mp hx with hx | hx
            · exact Nat.lt_succ_of_lt (hidb x hx)
            · rcases List.mem_singleton.mp hx with rfl
              exact Nat.lt_succ_self _
          · intro row hrow
            rcases List.mem_append.mp hrow with hrow | hrow
            · exact Or.inl hrow
            · rcases List.mem_singleton.mp hrow with rfl
              refine Or.inr ⟨rfl, ⟨st.nextId, g, subject⟩, ?_, rfl, rfl, h0⟩
              exact List.mem_append_right _ (List.mem_singleton.mpr rfl)

/-- The whole genre loop of one record. -/
theorem olGenreFold (bid : Nat) :
    ∀ (subjects : List String) (st : OLState),
    (∀ n, n ∈ st.seen_genres ↔ n ∈ st.genres.map (fun g => g.name)) →
    (st.genres.map (fun g => g.name)).Nodup →
    (st.genres.map (fun g => g.id)).Nodup →
    (∀ g ∈ st.genres, g.id < st.nextId) →
    let st2 := subjects.foldl (olProcessGenre bid) st
    st2.books = st.books ∧
    st2.authors = st.authors ∧
    st2.seen_authors = st.seen_authors ∧
    st2.book_authors = st.book_authors ∧
    st.nextId ≤ st2.nextId ∧
    (∃ d, st2.genres = st.genres ++ d) ∧
    (∃ d, st2.book_genres = st.book_genres ++ d) ∧
    (∀ n, n ∈ st2.seen_genres ↔ n ∈ st2.genres.map (fun g => g.name)) ∧
    (st2.genres.map (fun g => g.name)).Nodup ∧
    (st2.genres.map (fun g => g.id)).Nodup ∧
    (∀ g ∈ st2.genres, g.id < st2.nextId) ∧
    (∀ row ∈ st2.book_genres, row ∈ st.book_genres ∨
      (row.book_id = bid ∧ ∃ g ∈ st2.genres, g.id = row.genre_id ∧
        ∃ sub ∈ subjects, olNormalizeGenre sub = some g.name ∧ g.name ≠ "")) ∧
    st2.book_genres.length =
      st.book_genres.length +
        ((subjects.filter
          (fun sub => optStrTruthy (olNormalizeGenre sub))).length) := by
  intro subjects
  induction subjects with
  | nil =>
      intro st hseen hnodup hidn hidb st2
      have hst2 : st2 = st := rfl
      rw [hst2]
      refine ⟨rfl, rfl, rfl, rfl, le_refl _, ⟨[], by simp⟩, ⟨[], by simp⟩,
        hseen, hnodup, hidn, hidb, ?_, by simp⟩
      intro row hrow
      exact Or.inl hrow
  | cons sub subs ih =>
      intro st hseen hnodup hidn hidb st2
      obtain ⟨hb1, ha1, hsa1, hba1, hn1, ⟨dg1, hdg1⟩, ⟨dbg1, hdbg1⟩, hseen1,
        hnodup1, hidn1, hidb1, hrows1, hlen1⟩ :=
        olProcessGenre_step bid st sub hseen hnodup hidn hidb
      set st1 := olProcessGenre bid st sub with hst1
      obtain ⟨hb2, ha2, hsa2, hba2, hn2, ⟨dg2, hdg2⟩, ⟨dbg2, hdbg2⟩, hseen2,
        hnodup2, hidn2, hidb2, hrows2, hlen2⟩ :=
        ih st1 hseen1 hnodup1 hidn1 hidb1
      set stf := subs.foldl (olProcessGenre bid) st1 with hstf
      have hfold : st2 = stf := by
        simp [st2, List.foldl_cons, hst1, hstf]
      rw [hfold]
      refine ⟨hb2.trans hb1, ha2.trans ha1, hsa2.trans hsa1, hba2.trans hba1,
        le_trans hn1 hn2, ⟨dg1 ++ dg2, by rw [hdg2, hdg1, List.append_assoc]⟩,
        ⟨dbg1 ++ dbg2, by rw [hdbg2, hdbg1, List.append_assoc]⟩,
        hseen2, hnodup2, hidn2, hidb2, ?_, ?_⟩
      · intro row hrow
        rcases hrows2 row hrow with hrow1 | ⟨hbid, g, hg, hgid, sub2, hsub2, hng2, hgne2⟩
        · rcases hrows1 row hrow1 with hrow0 | ⟨hbid, g, hg, hgid, hngg, hgne⟩
          · exact Or.inl hrow0
          · refine Or.inr ⟨hbid, g, ?_, hgid, ⟨sub, List.mem_cons_self _ _, hngg, hgne⟩⟩
            rw [hdg2]
            exact List.mem_append_left _ hg
        · exact Or.inr ⟨hbid, g, hg, hgid, sub2, List.mem_cons_of_mem _ hsub2,
            hng2, hgne2⟩
      · rw [hlen2, hlen1]
        by_cases h0 : optStrTruthy (olNormalizeGenre sub) = true
        · simp [List.filter_cons, h0]
          omega
        · have h0f : optStrTruthy (olNormalizeGenre sub) = false := by
            cases hq : optStrTruthy (olNormalizeGenre sub)
            · rfl
            · exact absurd hq h0
          simp [List.filter_cons, h0f]

/-- The per-run invariant of the OpenLibrary normalizer state. -/
def OLInv (st : OLState) : Prop :=
  (∀ n, n ∈ st.seen_authors ↔ n ∈ st.authors.map (fun a => a.name)) ∧
  (∀ n, n ∈ st.seen_genres ↔ n ∈ st.genres.map (fun g => g.name)) ∧
  (st.authors.map (fun a => a.name)).Nodup ∧
  (st.genres.map (fun g => g.name)).Nodup ∧
  (st.authors.map (fun a => a.id)).Nodup ∧
  (st.genres.map (fun g => g.id)).Nodup ∧
  (st.books.map (fun b => b.id)).Nodup ∧
  (∀ a ∈ st.authors, a.id < st.nextId) ∧
  (∀ g ∈ st.genres, g.id < st.nextId) ∧
  (∀ b ∈ st.books, b.id < st.nextId)

theorem OLInv_init : OLInv olInit := by
  refine ⟨?_, ?_, ?_, ?_, ?_, ?_, ?_, ?_, ?_, ?_⟩ <;> simp [olInit]

/-- What one record-loop iteration of `_structure_data` does. -/
theorem olProcessRecord_step (st : OLState) (r : OLRawRecord)
    (hinv : OLInv st) :
    let st2 := olProcessRecord st r
    OLInv st2 ∧
    st.nextId ≤ st2.nextId ∧
    (∃ d, st2.authors = st.authors ++ d) ∧
    (∃ d, st2.genres = st.genres ++ d) ∧
    (∃ d, st2.book_authors = st.book_authors ++ d) ∧
    (∃ d, st2.book_genres = st.book_genres ++ d) ∧
    st2.books = st.books ++
      (if optStrTruthy r.title then [⟨st.nextId, r.title.getD ""⟩] else []) ∧
    st2.authors.map (fun a => a.name) =
      st.authors.map (fun a => a.name) ++
        olNewAuthorNames st.seen_authors
          (if optStrTruthy r.title then r.author_name else []) ∧
    st2.seen_authors =
      (if optStrTruthy r.title then olSeenAfter st.seen_authors r.author_name
       else st.seen_authors) ∧
    st2.book_authors.length = st.book_authors.length +
      (if optStrTruthy r.title
       then (r.author_name.filter (fun n => n != "")).length else 0) ∧
    st2.book_genres.length = st.book_genres.length +
      (if optStrTruthy r.title
       then (r.subject.filter
         (fun s => optStrTruthy (olNormalizeGenre s))).length else 0) ∧
    (∀ row ∈ st2.book_authors, row ∈ st.book_authors ∨
      (optStrTruthy r.title = true ∧
       (∃ b ∈ st2.books, b.id = row.book_id ∧ b.title = r.title.getD "") ∧
       ∃ a ∈ st2.authors, a.id = row.author_id ∧
         a.name ∈ r.author_name ∧ a.name ≠ "")) ∧
    (∀ row ∈ st2.book_genres, row ∈ st.book_genres ∨
      (optStrTruthy r.title = true ∧
       (∃ b ∈ st2.books, b.id = row.book_id ∧ b.title = r.title.getD "") ∧
       ∃ g ∈ st2.genres, g.id = row.genre_id ∧
         ∃ sub ∈ r.subject, olNormalizeGenre sub = some g.name ∧
           g.name ≠ "")) := by
  intro st2
  obtain ⟨hIsa, hIsg, hIan, hIgn, hIai, hIgi, hIbi, hIab, hIgb, hIbb⟩ := hinv
  by_cases ht : optStrTruthy r.title = true
  · -- the record is kept: book appended, then authors, then genres
    set st1 : OLState := { st with
      books := st.books ++ [⟨st.nextId, r.title.getD ""⟩]
      nextId := st.nextId + 1 } with hst1def
    have h1a : st1.authors = st.authors := rfl
    have h1g : st1.genres = st.genres := rfl
    have h1sa : st1.seen_authors = st.seen_authors := rfl
    have h1sg : st1.seen_genres = st.seen_genres := rfl
    have h1ba : st1.book_authors = st.book_authors := rfl
    have h1bg : st1.book_genres = st.book_genres := rfl
    have h1b : st1.books = st.books ++ [⟨st.nextId, r.title.getD ""⟩] := rfl
    have h1n : st1.nextId = st.nextId + 1 := rfl
    have hIab1 : ∀ a ∈ st1.authors, a.id < st1.nextId := by
      intro a ha
      rw [h1a] at ha
      rw [h1n]
      exact Nat.lt_succ_of_lt (hIab a ha)
    obtain ⟨hAb, hAg, hAsg, hAbg, hAn, ⟨dAa, hAda⟩, ⟨dAba, hAdba⟩, hAseen,
      hAnodup, hAidn, hAidb, hAnames, hAseeneq, hArows, hAlen⟩ :=
      olAuthorFold st.nextId r.author_name st1 hIsa hIan hIai hIab1
    set stA := r.author_name.foldl (olProcessAuthor st.nextId) st1 with hstAdef
    have hIgb1 : ∀ g ∈ stA.genres, g.id < stA.nextId := by
      intro g hg
      rw [hAg, h1g] at hg
      refine lt_of_lt_of_le ?_ hAn
      rw [h1n]
      exact Nat.lt_succ_of_lt (hIgb g hg)
    have hGseen0 : ∀ n, n ∈ stA.seen_genres ↔
        n ∈ stA.genres.map (fun g => g.name) := by
      rw [hAsg, hAg, h1sg, h1g]
      exact hIsg
    have hGnodup0 : (stA.genres.map (fun g => g.name)).Nodup := by
      rw [hAg, h1g]; exact hIgn
    have hGidn0 : (stA.genres.map (fun g => g.id)).Nodup := by
      rw [hAg, h1g]; exact hIgi
    obtain ⟨hGb, hGa, hGsa, hGba, hGn, ⟨dGg, hGdg⟩, ⟨dGbg, hGdbg⟩, hGseen,
      hGnodup, hGidn, hGidb, hGrows, hGlen⟩ :=
      olGenreFold st.nextId r.subject stA hGseen0 hGnodup0 hGidn0 hIgb1
    set stG := r.subject.foldl (olProcessGenre st.nextId) stA with hstGdef
    have hst2 : st2 = stG := by
      simp only [st2, olProcessRecord, ht, if_true]
    rw [hst2]
    have hbooks : stG.books = st.books ++ [⟨st.nextId, r.title.getD ""⟩] := by
      rw [hGb, hAb, h1b]
    have hGauth : stG.authors = st.authors ++ dAa := by
      rw [hGa, hAda, h1a]
    have hGrowsba : stG.book_authors = st.book_authors ++ dAba := by
      rw [hGba, hAdba, h1ba]
    have hGrowsbg : stG.book_genres = st.book_genres ++ dGbg := by
      rw [hGdbg, hAbg, h1bg]
    have hnext : st.nextId ≤ stG.nextId := by
      refine le_trans ?_ (le_trans hAn hGn)
      rw [h1n]
      exact Nat.le_succ _
    have hnextbound : ∀ b ∈ stG.books, b.id < stG.nextId := by
      intro b hb
      rw [hbooks] at hb
      have hn1G : st1.nextId ≤ stG.nextId := le_trans hAn hGn
      rw [h1n] at hn1G
      rcases List.mem_append.mp hb with hb | hb
      · have := hIbb b hb
        omega
      · rcases List.mem_singleton.mp hb with rfl
        show st.nextId < stG.nextId
        omega
    refine ⟨⟨?_, hGseen, ?_, hGnodup, ?_, hGidn, ?_, ?_, hGidb, hnextbound⟩,
      hnext, ⟨dAa, hGauth⟩, ⟨dGg, by rw [hGdg, hAg, h1g]⟩,
      ⟨dAba, hGrowsba⟩, ⟨dGbg, hGrowsbg⟩,
      by rw [hbooks, if_pos ht], ?_, ?_, ?_, ?_, ?_, ?_⟩
    · rw [hGsa, hGa]
      exact hAseen
    · rw [hGa]
      exact hAnodup
    · rw [hGa]
      exact hAidn
    · rw [hbooks]
      simp only [List.map_append]
      rw [List.nodup_append]
      refine ⟨hIbi, by simp, ?_⟩
      intro x hx
      simp only [List.map_cons, List.map_nil, List.mem_singleton]
      intro hx2
      rcases List.mem_map.mp hx with ⟨b, hb, rfl⟩
      have := hIbb b hb
      omega
    · intro a ha
      rw [hGa] at ha
      exact lt_of_lt_of_le (hAidb a ha) hGn
    · rw [hGa, hAnames, h1a, h1sa, if_pos ht]
    · rw [hGsa, hAseeneq, h1sa, if_pos ht]
    · rw [hGba, hAlen, h1ba, if_pos ht]
    · rw [hGlen, hAbg, h1bg, if_pos ht]
    · -- book-author rows
      intro row hrow
      rw [hGba] at hrow
      rcases hArows row hrow with hrow0 | ⟨hbid, a, ha, haid, haname, hane⟩
      · rw [h1ba] at hrow0
        exact Or.inl hrow0
      · refine Or.inr ⟨ht, ⟨⟨st.nextId, r.title.getD ""⟩, ?_, hbid.symm, rfl⟩,
          a, ?_, haid, haname, hane⟩
        · rw [hbooks]
          exact List.mem_append_right _ (List.mem_singleton.mpr rfl)
        · rw [hGa]
          exact ha
    · -- book-genre rows
      intro row hrow
      rcases hGrows row hrow with hrow0 | ⟨hbid, g, hg, hgid, sub, hsub, hng, hgne⟩
      · rw [hAbg, h1bg] at hrow0
        exact Or.inl hrow0
      · refine Or.inr ⟨ht, ⟨⟨st.nextId, r.title.getD ""⟩, ?_, hbid.symm, rfl⟩,
          g, hg, hgid, sub, hsub, hng, hgne⟩
        rw [hbooks]
        exact List.mem_append_right _ (List.mem_singleton.mpr rfl)
  · -- falsy title: the record is skipped with no side effects
    have hst2 : st2 = st := by
      simp only [st2, olProcessRecord]
      rw [if_neg ht]
    rw [hst2]
    have htf : optStrTruthy r.title = false := by
      cases hq : optStrTruthy r.title
      · rfl
      · exact absurd hq ht
    refine ⟨⟨hIsa, hIsg, hIan, hIgn, hIai, hIgi, hIbi, hIab, hIgb, hIbb⟩,
      le_refl _, ⟨[], by simp⟩, ⟨[], by simp⟩, ⟨[], by simp⟩, ⟨[], by simp⟩,
      by simp [htf], by simp [htf, olNewAuthorNames], by simp [htf],
      by simp [htf], by simp [htf], ?_, ?_⟩
    · intro row hrow
      exact Or.inl hrow
    · intro row hrow
      exact Or.inl hrow

/-- The flattened author-name sequence of the records that survive the
title check, in input order. -/
def olValidAuthorNames (records : List OLRawRecord) : List String :=
  ((records.filter (fun r => optStrTruthy r.title)).map
    (fun r => r.author_name)).join

theorem olSeenAfter_append (l1 l2 : List String) :
    ∀ (seen : List String),
      olSeenAfter seen (l1 ++ l2) = olSeenAfter (olSeenAfter seen l1) l2 := by
  induction l1 with
  | nil => intro seen; rfl
  | cons n ns ih =>
      intro seen
      by_cases h0 : n = ""
      · simp [olSeenAfter, h0, ih]
      · by_cases h1 : n ∈ seen
        · simp [olSeenAfter, h0, h1, ih]
        · simp [olSeenAfter, h0, h1, ih]

theorem olNewAuthorNames_append (l1 l2 : List String) :
    ∀ (seen : List String),
      olNewAuthorNames seen (l1 ++ l2) =
        olNewAuthorNames seen l1 ++
          olNewAuthorNames (olSeenAfter seen l1) l2 := by
  induction l1 with
  | nil => intro seen; rfl
  | cons n ns ih =>
      intro seen
      by_cases h0 : n = ""
      · simp [olNewAuthorNames, olSeenAfter, h0, ih]
      · by_cases h1 : n ∈ seen
        · simp [olNewAuthorNames, olSeenAfter, h0, h1, ih]
        · simp [olNewAuthorNames, olSeenAfter, h0, h1, ih]

/-- The whole record loop of `_structure_data`, chaining
`olProcessRecord_step`. -/
theorem olRecordsFold :
    ∀ (records : List OLRawRecord) (st : OLState), OLInv st →
    let st2 := records.foldl olProcessRecord st
    OLInv st2 ∧
    st.nextId ≤ st2.nextId ∧
    (∃ d, st2.authors = st.authors ++ d) ∧
    (∃ d, st2.genres = st.genres ++ d) ∧
    (∃ d, st2.books = st.books ++ d) ∧
    st2.books.map (fun b => b.title) =
      st.books.map (fun b => b.title) ++
        (records.filter (fun r => optStrTruthy r.title)).map
          (fun r => r.title.getD "") ∧
    st2.authors.map (fun a => a.name) =
      st.authors.map (fun a => a.name) ++
        olNewAuthorNames st.seen_authors (olValidAuthorNames records) ∧
    st2.seen_authors =
      olSeenAfter st.seen_authors (olValidAuthorNames records) ∧
    st2.book_authors.length = st.book_authors.length +
      (((records.filter (fun r => optStrTruthy r.title)).map
        (fun r => (r.author_name.filter (fun n => n != "")).length)).sum) ∧
    st2.book_genres.length = st.book_genres.length +
      (((records.filter (fun r => optStrTruthy r.title)).map
        (fun r => (r.subject.filter
          (fun s => optStrTruthy (olNormalizeGenre s))).length)).sum) ∧
    (∀ row ∈ st2.book_authors, row ∈ st.book_authors ∨
      ∃ r ∈ records, optStrTruthy r.title = true ∧
        (∃ b ∈ st2.books, b.id = row.book_id ∧ b.title = r.title.getD "") ∧
        ∃ a ∈ st2.authors, a.id = row.author_id ∧
          a.name ∈ r.author_name ∧ a.name ≠ "") ∧
    (∀ row ∈ st2.book_genres, row ∈ st.book_genres ∨
      ∃ r ∈ records, optStrTruthy r.title = true ∧
        (∃ b ∈ st2.books, b.id = row.book_id ∧ b.title = r.title.getD "") ∧
        ∃ g ∈ st2.genres, g.id = row.genre_id ∧
          ∃ sub ∈ r.subject, olNormalizeGenre sub = some g.name ∧
            g.name ≠ "") := by
  intro records
  induction records with
  | nil =>
      intro st hinv st2
      have hst2 : st2 = st := rfl
      rw [hst2]
      refine ⟨hinv, le_refl _, ⟨[], by simp⟩, ⟨[], by simp⟩, ⟨[], by simp⟩,
        by simp, by simp [olNewAuthorNames, olValidAuthorNames],
        by simp [olSeenAfter, olValidAuthorNames], by simp, by simp, ?_, ?_⟩
      · intro row hrow
        exact Or.inl hrow
      · intro row hrow
        exact Or.inl hrow
  | cons r rs ih =>
      intro st hinv st2
      obtain ⟨hinv1, hn1, ⟨da1, hda1⟩, ⟨dg1, hdg1⟩, ⟨dba1, hdba1⟩,
        ⟨dbg1, hdbg1⟩, hbooks1, hnames1, hseen1, hlenba1, hlenbg1,
        hrows1, hgrows1⟩ := olProcessRecord_step st r hinv
      set st1 := olProcessRecord st r with hst1def
      obtain ⟨hinv2, hn2, ⟨da2, hda2⟩, ⟨dg2, hdg2⟩, ⟨db2, hdb2⟩, hbooks2,
        hnames2, hseen2, hlenba2, hlenbg2, hrows2, hgrows2⟩ := ih st1 hinv1
      set stf := rs.foldl olProcessRecord st1 with hstfdef
      have hfold : st2 = stf := rfl
      rw [hfold]
      have hbooks0 : ∃ d, st1.books = st.books ++ d := by
        rw [hbooks1]
        exact ⟨_, rfl⟩
      rcases hbooks0 with ⟨db1, hdb1⟩
      by_cases ht : optStrTruthy r.title = true
      · refine ⟨hinv2, le_trans hn1 hn2,
          ⟨da1 ++ da2, by rw [hda2, hda1, List.append_assoc]⟩,
          ⟨dg1 ++ dg2, by rw [hdg2, hdg1, List.append_assoc]⟩,
          ⟨db1 ++ db2, by rw [hdb2, hdb1, List.append_assoc]⟩,
          ?_, ?_, ?_, ?_, ?_, ?_, ?_⟩
        · rw [hbooks2, hbooks1, if_pos ht]
          simp [List.filter_cons, ht]
        · rw [hnames2, hnames1, if_pos ht, hseen1, if_pos ht,
            List.append_assoc]
          have hv : olValidAuthorNames (r :: rs) =
              r.author_name ++ olValidAuthorNames rs := by
            simp [olValidAuthorNames, List.filter_cons, ht]
          rw [hv, olNewAuthorNames_append]
        · rw [hseen2, hseen1, if_pos ht]
          have hv : olValidAuthorNames (r :: rs) =
              r.author_name ++ olValidAuthorNames rs := by
            simp [olValidAuthorNames, List.filter_cons, ht]
          rw [hv, olSeenAfter_append]
        · rw [hlenba2, hlenba1, if_pos ht]
          simp [List.filter_cons, ht]
          omega
        · rw [hlenbg2, hlenbg1, if_pos ht]
          simp [List.filter_cons, ht]
          omega
        · intro row hrow
          rcases hrows2 row hrow with hrow1 | ⟨r2, hr2, ht2, hb2x, ha2x⟩
          · rcases hrows1 row hrow1 with hrow0 | ⟨ht0, ⟨b, hb, hbid, hbti⟩,
              a, ha, haid, haname, hane⟩
            · exact Or.inl hrow0
            · refine Or.inr ⟨r, List.mem_cons_self _ _, ht0,
                ⟨b, ?_, hbid, hbti⟩, a, ?_, haid, haname, hane⟩
              · rw [hdb2]
                exact List.mem_append_left _ hb
              · rw [hda2]
                exact List.mem_append_left _ ha
          · exact Or.inr ⟨r2, List.mem_cons_of_mem _ hr2, ht2, hb2x, ha2x⟩
        · intro row hrow
          rcases hgrows2 row hrow with hrow1 | ⟨r2, hr2, ht2, hb2x, hg2x⟩
          · rcases hgrows1 row hrow1 with hrow0 | ⟨ht0, ⟨b, hb, hbid, hbti⟩,
              g, hg, hgid, hsub⟩
            · exact Or.inl hrow0
            · refine Or.inr ⟨r, List.mem_cons_self _ _, ht0,
                ⟨b, ?_, hbid, hbti⟩, g, ?_, hgid, hsub⟩
              · rw [hdb2]
                exact List.mem_append_left _ hb
              · rw [hdg2]
                exact List.mem_append_left _ hg
          · exact Or.inr ⟨r2, List.mem_cons_of_mem _ hr2, ht2, hb2x, hg2x⟩
      · have htf : optStrTruthy r.title = false := by
          cases hq : optStrTruthy r.title
          · rfl
          · exact absurd hq ht
        refine ⟨hinv2, le_trans hn1 hn2,
          ⟨da1 ++ da2, by rw [hda2, hda1, List.append_assoc]⟩,
          ⟨dg1 ++ dg2, by rw [hdg2, hdg1, List.append_assoc]⟩,
          ⟨db1 ++ db2, by rw [hdb2, hdb1, List.append_assoc]⟩,
          ?_, ?_, ?_, ?_, ?_, ?_, ?_⟩
        · rw [hbooks2, hbooks1, if_neg ht]
          simp [List.filter_cons, htf]
        · rw [hnames2, hnames1, if_neg ht, hseen1, if_neg ht,
            List.append_assoc]
          have hv : olValidAuthorNames (r :: rs) = olValidAuthorNames rs := by
            simp [olValidAuthorNames, List.filter_cons, htf]
          rw [hv]
          simp [olNewAuthorNames]
        · rw [hseen2, hseen1, if_neg ht]
          have hv : olValidAuthorNames (r :: rs) = olValidAuthorNames rs := by
            simp [olValidAuthorNames, List.filter_cons, htf]
          rw [hv]
        · rw [hlenba2, hlenba1, if_neg ht]
          simp [List.filter_cons, htf]
        · rw [hlenbg2, hlenbg1, if_neg ht]
          simp [List.filter_cons, htf]
        · intro row hrow
          rcases hrows2 row hrow with hrow1 | ⟨r2, hr2, ht2, hb2x, ha2x⟩
          · rcases hrows1 row hrow1 with hrow0 | ⟨ht0, hrest⟩
            · exact Or.inl hrow0
            · exact absurd ht0 ht
          · exact Or.inr ⟨r2, List.mem_cons_of_mem _ hr2, ht2, hb2x, ha2x⟩
        · intro row hrow
          rcases hgrows2 row hrow with hrow1 | ⟨r2, hr2, ht2, hb2x, hg2x⟩
          · rcases hgrows1 row hrow1 with hrow0 | ⟨ht0, hrest⟩
            · exact Or.inl hrow0
            · exact absurd ht0 ht
          · exact Or.inr ⟨r2, List.mem_cons_of_mem _ hr2, ht2, hb2x, hg2x⟩

/-- `find?` on a list extended with a fresh element whose key is not in
the prefix finds exactly that element. -/
theorem find?_name_append_new {α : Type} (f : α → String) (l : List α)
    (x : α) (name : String) (hx : f x = name) (h : ∀ a ∈ l, f a ≠ name) :
    (l ++ [x]).find? (fun a => f a == name) = some x := by
  induction l with
  | nil =>
      simp [List.find?, hx]
  | cons a l ih =>
      have ha : (f a == name) = false := by
        simp [h a (List.mem_cons_self _ _)]
      simp only [List.cons_append, List.find?, ha]
      exact ih (fun a2 ha2 => h a2 (List.mem_cons_of_mem _ ha2))

/-- Specification-side: the seen-set contents after a run of the Google
author loop (no falsy-name skip). -/
def gSeenAfter (seen : List String) : List String → List String
  | [] => seen
  | n :: ns =>
      if n ∈ seen then gSeenAfter seen ns else gSeenAfter (n :: seen) ns

/-- What one Google author-loop iteration does. -/
theorem gProcessAuthor_step (bid : Nat) (st : GState) (name : String)
    (hseen : ∀ n, n ∈ st.seen_authors ↔ n ∈ st.authors.map (fun a => a.name))
    (hnodup : (st.authors.map (fun a => a.name)).Nodup)
    (hidn : (st.authors.map (fun a => a.id)).Nodup)
    (hidb : ∀ a ∈ st.authors, a.id < st.nextId) :
    let st2 := gProcessAuthor bid st name
    st2.books = st.books ∧
    st2.genres = st.genres ∧
    st2.seen_genres = st.seen_genres ∧
    st2.book_genres = st.book_genres ∧
    st.nextId ≤ st2.nextId ∧
    (∃ d, st2.authors = st.authors ++ d) ∧
    (∃ d, st2.book_authors = st.book_authors ++ d) ∧
    (∀ n, n ∈ st2.seen_authors ↔ n ∈ st2.authors.map (fun a => a.name)) ∧
    (st2.authors.map (fun a => a.name)).Nodup ∧
    (st2.authors.map (fun a => a.id)).Nodup ∧
    (∀ a ∈ st2.authors, a.id < st2.nextId) ∧
    st2.authors.map (fun a => a.name) =
      st.authors.map (fun a => a.name) ++ gNewAuthorNames st.seen_authors [name] ∧
    st2.seen_authors =
      (if name ∈ st.seen_authors then st.seen_authors
       else name :: st.seen_authors) ∧
    (∀ row ∈ st2.book_authors, row ∈ st.book_authors ∨
      (row.book_id = bid ∧ ∃ a ∈ st2.authors,
        a.id = row.author_id ∧ a.name = name)) ∧
    st2.book_authors.length = st.book_authors.length + 1 := by
  intro st2
  by_cases h1 : name ∈ st.seen_authors
  · have hex : ∃ a ∈ st.authors, (a.name == name) = true := by
      have := (hseen name).mp h1
      rcases List.mem_map.mp this with ⟨a, ha, haname⟩
      exact ⟨a, ha, by simp [haname]⟩
    have hfind : (st.authors.find? (fun a => a.name == name)).isSome := by
      rw [List.find?_isSome]
      exact hex
    rcases Option.isSome_iff_exists.mp hfind with ⟨a0, ha0⟩
    have ha0mem : a0 ∈ st.authors := List.mem_of_find?_eq_some ha0
    have ha0name : a0.name = name := by
      have := List.find?_some ha0
      simpa using this
    have hst2 : st2 = { st with
        book_authors := st.book_authors ++ [⟨bid, a0.id⟩] } := by
      simp [st2, gProcessAuthor, h1, ha0]
    rw [hst2]
    refine ⟨rfl, rfl, rfl, rfl, le_refl _, ⟨[], by simp⟩,
      ⟨[⟨bid, a0.id⟩], rfl⟩, hseen, hnodup, hidn, hidb,
      by simp [gNewAuthorNames, h1], by simp [h1], ?_, by simp⟩
    intro row hrow
    rcases List.mem_append.mp hrow with hrow | hrow
    · exact Or.inl hrow
    · rcases List.mem_singleton.mp hrow with rfl
      exact Or.inr ⟨rfl, a0, ha0mem, rfl, ha0name⟩
  · have hnotmem : name ∉ st.authors.map (fun a => a.name) := by
      intro hmem
      exact h1 ((hseen name).mpr hmem)
    have hnone : ∀ a ∈ st.authors, a.name ≠ name := by
      intro a ha he
      exact hnotmem (List.mem_map.mpr ⟨a, ha, he⟩)
    have hfind : (st.authors ++ [(⟨st.nextId, name⟩ : Author)]).find?
        (fun a => a.name == name) = some (⟨st.nextId, name⟩ : Author) :=
      find?_name_append_new (fun a => a.name) st.authors ⟨st.nextId, name⟩
        name rfl hnone
    have hst2 : st2 = { st with
        authors := st.authors ++ [⟨st.nextId, name⟩]
        seen_authors := name :: st.seen_authors
        nextId := st.nextId + 1
        book_authors := st.book_authors ++ [⟨bid, st.nextId⟩] } := by
      simp [st2, gProcessAuthor, h1, hfind]
    rw [hst2]
    refine ⟨rfl, rfl, rfl, rfl, Nat.le_succ _, ⟨[⟨st.nextId, name⟩], rfl⟩,
      ⟨[⟨bid, st.nextId⟩], rfl⟩, ?_, ?_, ?_, ?_, ?_, by simp [h1], ?_, by simp⟩
    · intro n
      simp only [List.mem_cons, List.map_append, List.mem_append]
      constructor
      · rintro (rfl | hn)
        · right; simp
        · left; exact (hseen n).mp hn
      · rintro (hn | hn)
        · right; exact (hseen n).mpr hn
        · left; simpa using hn
    · simp only [List.map_append]
      rw [List.nodup_append]
      refine ⟨hnodup, by simp, ?_⟩
      intro x hx
      simp only [List.map_cons, List.map_nil, List.mem_singleton]
      intro hx2
      rw [hx2] at hx
      exact hnotmem hx
    · simp only [List.map_append]
      rw [List.nodup_append]
      refine ⟨hidn, by simp, ?_⟩
      intro x hx
      simp only [List.map_cons, List.map_nil, List.mem_singleton]
      intro hx2
      rcases List.mem_map.mp hx with ⟨a, ha, rfl⟩
      have := hidb a ha
      omega
    · intro a ha
      rcases List.mem_append.mp ha with ha | ha
      · exact Nat.lt_succ_of_lt (hidb a ha)
      · rcases List.mem_singleton.mp ha with rfl
        exact Nat.lt_succ_self _
    · simp [gNewAuthorNames, h1]
    · intro row hrow
      rcases List.mem_append.mp hrow with hrow | hrow
      · exact Or.inl hrow
      · rcases List.mem_singleton.mp hrow with rfl
        refine Or.inr ⟨rfl, ⟨st.nextId, name⟩, ?_, rfl, rfl⟩
        exact List.mem_append_right _ (List.mem_singleton.mpr rfl)

/-- The whole Google author loop of one record. -/
theorem gAuthorFold (bid : Nat) :
    ∀ (names : List String) (st : GState),
    (∀ n, n ∈ st.seen_authors ↔ n ∈ st.authors.map (fun a => a.name)) →
    (st.authors.map (fun a => a.name)).Nodup →
    (st.authors.map (fun a => a.id)).Nodup →
    (∀ a ∈ st.authors, a.id < st.nextId) →
    let st2 := names.foldl (gProcessAuthor bid) st
    st2.books = st.books ∧
    st2.genres = st.genres ∧
    st2.seen_genres = st.seen_genres ∧
    st2.book_genres = st.book_genres ∧
    st.nextId ≤ st2.nextId ∧
    (∃ d, st2.authors = st.authors ++ d) ∧
    (∃ d, st2.book_authors = st.book_authors ++ d) ∧
    (∀ n, n ∈ st2.seen_authors ↔ n ∈ st2.authors.map (fun a => a.name)) ∧
    (st2.authors.map (fun a => a.name)).Nodup ∧
    (st2.authors.map (fun a => a.id)).Nodup ∧
    (∀ a ∈ st2.authors, a.id < st2.nextId) ∧
    st2.authors.map (fun a => a.name) =
      st.authors.map (fun a => a.name) ++ gNewAuthorNames st.seen_authors names ∧
    st2.seen_authors = gSeenAfter st.seen_authors names ∧
    (∀ row ∈ st2.book_authors, row ∈ st.book_authors ∨
      (row.book_id = bid ∧ ∃ a ∈ st2.authors,
        a.id = row.author_id ∧ a.name ∈ names)) ∧
    st2.book_authors.length = st.book_authors.length + names.length := by
  intro names
  induction names with
  | nil =>
      intro st hseen hnodup hidn hidb st2
      have hst2 : st2 = st := rfl
      rw [hst2]
      refine ⟨rfl, rfl, rfl, rfl, le_refl _, ⟨[], by simp⟩, ⟨[], by simp⟩,
        hseen, hnodup, hidn, hidb, by simp [gNewAuthorNames],
        by simp [gSeenAfter], ?_, by simp⟩
      intro row hrow
      exact Or.inl hrow
  | cons n ns ih =>
      intro st hseen hnodup hidn hidb st2
      obtain ⟨hb1, hg1, hsg1, hbg1, hn1, ⟨da1, hda1⟩, ⟨dba1, hdba1⟩, hseen1,
        hnodup1, hidn1, hidb1, hnames1, hseeneq1, hrows1, hlen1⟩ :=
        gProcessAuthor_step bid st n hseen hnodup hidn hidb
      set st1 := gProcessAuthor bid st n with hst1
      obtain ⟨hb2, hg2, hsg2, hbg2, hn2, ⟨da2, hda2⟩, ⟨dba2, hdba2⟩, hseen2,
        hnodup2, hidn2, hidb2, hnames2, hseeneq2, hrows2, hlen2⟩ :=
        ih st1 hseen1 hnodup1 hidn1 hidb1
      set stf := ns.foldl (gProcessAuthor bid) st1 with hstf
      have hfold : st2 = stf := by
        simp [st2, List.foldl_cons, hst1, hstf]
      rw [hfold]
      refine ⟨hb2.trans hb1, hg2.trans hg1, hsg2.trans hsg1, hbg2.trans hbg1,
        le_trans hn1 hn2, ⟨da1 ++ da2, by rw [hda2, hda1, List.append_assoc]⟩,
        ⟨dba1 ++ dba2, by rw [hdba2, hdba1, List.append_assoc]⟩,
        hseen2, hnodup2, hidn2, hidb2, ?_, ?_, ?_, ?_⟩
      · rw [hnames2, hnames1, hseeneq1, List.append_assoc]
        by_cases h1 : n ∈ st.seen_authors
        · simp [gNewAuthorNames, h1]
        · simp [gNewAuthorNames, h1]
      · rw [hseeneq2, hseeneq1]
        by_cases h1 : n ∈ st.seen_authors
        · simp [gSeenAfter, h1]
        · simp [gSeenAfter, h1]
      · intro row hrow
        rcases hrows2 row hrow with hrow1 | ⟨hbid, a, ha, haid, haname⟩
        · rcases hrows1 row hrow1 with hrow0 | ⟨hbid, a, ha, haid, haname⟩
          · exact Or.inl hrow0
          · refine Or.inr ⟨hbid, a, ?_, haid, ?_⟩
            · rw [hda2]
              exact List.mem_append_left _ ha
            · rw [haname]
              exact List.mem_cons_self _ _
        · exact Or.inr ⟨hbid, a, ha, haid, List.mem_cons_of_mem _ haname⟩
      · rw [hlen2, hlen1]
        simp
        omega

/-- What one Google genre-loop iteration does. -/
theorem gProcessGenre_step (bid : Nat) (st : GState) (catName : String)
    (hseen : ∀ n, n ∈ st.seen_genres ↔ n ∈ st.genres.map (fun g => g.name))
    (hnodup : (st.genres.map (fun g => g.name)).Nodup)
    (hidn : (st.genres.map (fun g => g.id)).Nodup)
    (hidb : ∀ g ∈ st.genres, g.id < st.nextId) :
    let st2 := gProcessGenre bid st catName
    st2.books = st.books ∧
    st2.authors = st.authors ∧
    st2.seen_authors = st.seen_authors ∧
    st2.book_authors = st.book_authors ∧
    st.nextId ≤ st2.nextId ∧
    (∃ d, st2.genres = st.genres ++ d) ∧
    (∃ d, st2.book_genres = st.book_genres ++ d) ∧
    (∀ n, n ∈ st2.seen_genres ↔ n ∈ st2.genres.map (fun g => g.name)) ∧
    (st2.genres.map (fun g => g.name)).Nodup ∧
    (st2.genres.map (fun g => g.id)).Nodup ∧
    (∀ g ∈ st2.genres, g.id < st2.nextId) ∧
    (∀ row ∈ st2.book_genres, row ∈ st.book_genres ∨
      (row.book_id = bid ∧ ∃ g ∈ st2.genres, g.id = row.genre_id ∧
        gNormalizeGenre catName = some g.name ∧ g.name ≠ "")) ∧
    st2.book_genres.length =
      st.book_genres.length +
        (if optStrTruthy (gNormalizeGenre catName) then 1 else 0) := by
  intro st2
  cases hng : gNormalizeGenre catName with
  | none =>
      have hst2 : st2 = st := by
        simp [st2, gProcessGenre, hng]
      rw [hst2]
      refine ⟨rfl, rfl, rfl, rfl, le_refl _, ⟨[], by simp⟩, ⟨[], by simp⟩,
        hseen, hnodup, hidn, hidb, ?_, by simp [optStrTruthy, hng]⟩
      intro row hrow
      exact Or.inl hrow
  | some g =>
      by_cases h0 : g = ""
      · have hst2 : st2 = st := by
          simp [st2, gProcessGenre, hng, h0]
        rw [hst2]
        refine ⟨rfl, rfl, rfl, rfl, le_refl _, ⟨[], by simp⟩, ⟨[], by simp⟩,
          hseen, hnodup, hidn, hidb, ?_, by simp [optStrTruthy, hng, h0]⟩
        intro row hrow
        exact Or.inl hrow
      · by_cases h1 : g ∈ st.seen_genres
        · have hex : ∃ x ∈ st.genres, (x.name == g) = true := by
            have := (hseen g).mp h1
            rcases List.mem_map.mp this with ⟨x, hx, hxname⟩
            exact ⟨x, hx, by simp [hxname]⟩
          have hfind : (st.genres.find? (fun x => x.name == g)).isSome := by
            rw [List.find?_isSome]
            exact hex
          rcases Option.isSome_iff_exists.mp hfind with ⟨g0, hg0⟩
          have hg0mem : g0 ∈ st.genres := List.mem_of_find?_eq_some hg0
          have hg0name : g0.name = g := by
            have := List.find?_some hg0
            simpa using this
          have hst2 : st2 = { st with
              book_genres := st.book_genres ++ [⟨bid, g0.id⟩] } := by
            simp [st2, gProcessGenre, hng, h0, h1, hg0]
          rw [hst2]
          refine ⟨rfl, rfl, rfl, rfl, le_refl _, ⟨[], by simp⟩,
            ⟨[⟨bid, g0.id⟩], rfl⟩, hseen, hnodup, hidn, hidb, ?_,
            by simp [optStrTruthy, hng, h0]⟩
          intro row hrow
          rcases List.mem_append.mp hrow with hrow | hrow
          · exact Or.inl hrow
          · rcases List.mem_singleton.mp hrow with rfl
            refine Or.inr ⟨rfl, g0, hg0mem, rfl, ?_, ?_⟩
            · rw [hg0name]
            · rw [hg0name]
              exact h0
        · have hgnotmem : g ∉ st.genres.map (fun x => x.name) := by
            intro hmem
            exact h1 ((hseen g).mpr hmem)
          have hnone : ∀ x ∈ st.genres, x.name ≠ g := by
            intro x hx he
            exact hgnotmem (List.mem_map.mpr ⟨x, hx, he⟩)
          have hfind : (st.genres ++ [(⟨st.nextId, g⟩ : GGenre)]).find?
              (fun x => x.name == g) = some (⟨st.nextId, g⟩ : GGenre) :=
            find?_name_append_new (fun x => x.name) st.genres ⟨st.nextId, g⟩
              g rfl hnone
          have hst2 : st2 = { st with
              genres := st.genres ++ [⟨st.nextId, g⟩]
              seen_genres := g :: st.seen_genres
              nextId := st.nextId + 1
              book_genres := st.book_genres ++ [⟨bid, st.nextId⟩] } := by
            simp [st2, gProcessGenre, hng, h0, h1, hfind]
          rw [hst2]
          refine ⟨rfl, rfl, rfl, rfl, Nat.le_succ _,
            ⟨[⟨st.nextId, g⟩], rfl⟩, ⟨[⟨bid, st.nextId⟩], rfl⟩,
            ?_, ?_, ?_, ?_, ?_, by simp [optStrTruthy, hng, h0]⟩
          · intro n
            simp only [List.mem_cons, List.map_append, List.mem_append]
            constructor
            · rintro (rfl | hn)
              · right; simp
              · left; exact (hseen n).mp hn
            · rintro (hn | hn)
              · right; exact (hseen n).mpr hn
              · left; simpa using hn
          · simp only [List.map_append]
            rw [List.nodup_append]
            refine ⟨hnodup, by simp, ?_⟩
            intro x hx
            simp only [List.map_cons, List.map_nil, List.mem_singleton]
            intro hx2
            rw [hx2] at hx
            exact hgnotmem hx
          · simp only [List.map_append]
            rw [List.nodup_append]
            refine ⟨hidn, by simp, ?_⟩
            intro x hx
            simp only [List.map_cons, List.map_nil, List.mem_singleton]
            intro hx2
            rcases List.mem_map.mp hx with ⟨x2, hx2m, rfl⟩
            have := hidb x2 hx2m
            omega
          · intro x hx
            rcases List.mem_append.mp hx with hx | hx
            · exact Nat.lt_succ_of_lt (hidb x hx)
            · rcases List.mem_singleton.mp hx with rfl
              exact Nat.lt_succ_self _
          · intro row hrow
            rcases List.mem_append.mp hrow with hrow | hrow
            · exact Or.inl hrow
            · rcases List.mem_singleton.mp hrow with rfl
              refine Or.inr ⟨rfl, ⟨st.nextId, g⟩, ?_, rfl, rfl, h0⟩
              exact List.mem_append_right _ (List.mem_singleton.mpr rfl)

/-- The whole Google genre loop of one record. -/
theorem gGenreFold (bid : Nat) :
    ∀ (cats : List String) (st : GState),
    (∀ n, n ∈ st.seen_genres ↔ n ∈ st.genres.map (fun g => g.name)) →
    (st.genres.map (fun g => g.name)).Nodup →
    (st.genres.map (fun g => g.id)).Nodup →
    (∀ g ∈ st.genres, g.id < st.nextId) →
    let st2 := cats.foldl (gProcessGenre bid) st
    st2.books = st.books ∧
    st2.authors = st.authors ∧
    st2.seen_authors = st.seen_authors ∧
    st2.book_authors = st.book_authors ∧
    st.nextId ≤ st2.nextId ∧
    (∃ d, st2.genres = st.genres ++ d) ∧
    (∃ d, st2.book_genres = st.book_genres ++ d) ∧
    (∀ n, n ∈ st2.seen_genres ↔ n ∈ st2.genres.map (fun g => g.name)) ∧
    (st2.genres.map (fun g => g.name)).Nodup ∧
    (st2.genres.map (fun g => g.id)).Nodup ∧
    (∀ g ∈ st2.genres, g.id < st2.nextId) ∧
    (∀ row ∈ st2.book_genres, row ∈ st.book_genres ∨
      (row.book_id = bid ∧ ∃ g ∈ st2.genres, g.id = row.genre_id ∧
        ∃ cat ∈ cats, gNormalizeGenre cat = some g.name ∧ g.name ≠ "")) ∧
    st2.book_genres.length =
      st.book_genres.length +
        ((cats.filter
          (fun cat => optStrTruthy (gNormalizeGenre cat))).length) := by
  intro cats
  induction cats with
  | nil =>
      intro st hseen hnodup hidn hidb st2
      have hst2 : st2 = st := rfl
      rw [hst2]
      refine ⟨rfl, rfl, rfl, rfl, le_refl _, ⟨[], by simp⟩, ⟨[], by simp⟩,
        hseen, hnodup, hidn, hidb, ?_, by simp⟩
      intro row hrow
      exact Or.inl hrow
  | cons cat cats ih =>
      intro st hseen hnodup hidn hidb st2
      obtain ⟨hb1, ha1, hsa1, hba1, hn1, ⟨dg1, hdg1⟩, ⟨dbg1, hdbg1⟩, hseen1,
        hnodup1, hidn1, hidb1, hrows1, hlen1⟩ :=
        gProcessGenre_step bid st cat hseen hnodup hidn hidb
      set st1 := gProcessGenre bid st cat with hst1
      obtain ⟨hb2, ha2, hsa2, hba2, hn2, ⟨dg2, hdg2⟩, ⟨dbg2, hdbg2⟩, hseen2,
        hnodup2, hidn2, hidb2, hrows2, hlen2⟩ :=
        ih st1 hseen1 hnodup1 hidn1 hidb1
      set stf := cats.foldl (gProcessGenre bid) st1 with hstf
      have hfold : st2 = stf := by
        simp [st2, List.foldl_cons, hst1, hstf]
      rw [hfold]
      refine ⟨hb2.trans hb1, ha2.trans ha1, hsa2.trans hsa1, hba2.trans hba1,
        le_trans hn1 hn2, ⟨dg1 ++ dg2, by rw [hdg2, hdg1, List.append_assoc]⟩,
        ⟨dbg1 ++ dbg2, by rw [hdbg2, hdbg1, List.append_assoc]⟩,
        hseen2, hnodup2, hidn2, hidb2, ?_, ?_⟩
      · intro row hrow
        rcases hrows2 row hrow with hrow1 | ⟨hbid, g, hg, hgid, c2, hc2, hng2, hgne2⟩
        · rcases hrows1 row hrow1 with hrow0 | ⟨hbid, g, hg, hgid, hngg, hgne⟩
          · exact Or.inl hrow0
          · refine Or.inr ⟨hbid, g, ?_, hgid,
              ⟨cat, List.mem_cons_self _ _, hngg, hgne⟩⟩
            rw [hdg2]
            exact List.mem_append_left _ hg
        · exact Or.inr ⟨hbid, g, hg, hgid, c2, List.mem_cons_of_mem _ hc2,
            hng2, hgne2⟩
      · rw [hlen2, hlen1]
        by_cases h0 : optStrTruthy (gNormalizeGenre cat) = true
        · simp [List.filter_cons, h0]
          omega
        · have h0f : optStrTruthy (gNormalizeGenre cat) = false := by
            cases hq : optStrTruthy (gNormalizeGenre cat)
            · rfl
            · exact absurd hq h0
          simp [List.filter_cons, h0f]

/-- The per-run invariant of the Google normalizer state. -/
def GInv (st : GState) : Prop :=
  (∀ n, n ∈ st.seen_authors ↔ n ∈ st.authors.map (fun a => a.name)) ∧
  (∀ n, n ∈ st.seen_genres ↔ n ∈ st.genres.map (fun g => g.name)) ∧
  (st.authors.map (fun a => a.name)).Nodup ∧
  (st.genres.map (fun g => g.name)).Nodup ∧
  (st.authors.map (fun a => a.id)).Nodup ∧
  (st.genres.map (fun g => g.id)).Nodup ∧
  (st.books.map (fun b => b.id)).Nodup ∧
  (∀ a ∈ st.authors, a.id < st.nextId) ∧
  (∀ g ∈ st.genres, g.id < st.nextId) ∧
  (∀ b ∈ st.books, b.id < st.nextId)

theorem GInv_init : GInv gInit := by
  refine ⟨?_, ?_, ?_, ?_, ?_, ?_, ?_, ?_, ?_, ?_⟩ <;> simp [gInit]

/-- The flattened author-name sequence of all records, in input order. -/
def gAllAuthorNames (records : List GRawRecord) : List String :=
  (records.map (fun r => r.authors)).join

theorem gSeenAfter_append (l1 l2 : List String) :
    ∀ (seen : List String),
      gSeenAfter seen (l1 ++ l2) = gSeenAfter (gSeenAfter seen l1) l2 := by
  induction l1 with
  | nil => intro seen; rfl
  | cons n ns ih =>
      intro seen
      by_cases h1 : n ∈ seen
      · simp [gSeenAfter, h1, ih]
      · simp [gSeenAfter, h1, ih]

theorem gNewAuthorNames_append (l1 l2 : List String) :
    ∀ (seen : List String),
      gNewAuthorNames seen (l1 ++ l2) =
        gNewAuthorNames seen l1 ++
          gNewAuthorNames (gSeenAfter seen l1) l2 := by
  induction l1 with
  | nil => intro seen; rfl
  | cons n ns ih =>
      intro seen
      by_cases h1 : n ∈ seen
      · simp [gNewAuthorNames, gSeenAfter, h1, ih]
      · simp [gNewAuthorNames, gSeenAfter, h1, ih]

/-- What one record-loop iteration of the Google normalizer does: a
`Book` is appended unconditionally, then authors and genres. -/
theorem gProcessRecord_step (st : GState) (r : GRawRecord) (hinv : GInv st) :
    let st2 := gProcessRecord st r
    GInv st2 ∧
    st.nextId ≤ st2.nextId ∧
    (∃ d, st2.authors = st.authors ++ d) ∧
    (∃ d, st2.genres = st.genres ++ d) ∧
    (∃ d, st2.book_authors = st.book_authors ++ d) ∧
    (∃ d, st2.book_genres = st.book_genres ++ d) ∧
    st2.books = st.books ++ [⟨st.nextId, r.title⟩] ∧
    st2.authors.map (fun a => a.name) =
      st.authors.map (fun a => a.name) ++
        gNewAuthorNames st.seen_authors r.authors ∧
    st2.seen_authors = gSeenAfter st.seen_authors r.authors ∧
    st2.book_authors.length = st.book_authors.length + r.authors.length ∧
    st2.book_genres.length = st.book_genres.length +
      (r.categories.filter
        (fun cat => optStrTruthy (gNormalizeGenre cat))).length ∧
    (∀ row ∈ st2.book_authors, row ∈ st.book_authors ∨
      ((∃ b ∈ st2.books, b.id = row.book_id ∧ b.title = r.title) ∧
       ∃ a ∈ st2.authors, a.id = row.author_id ∧ a.name ∈ r.authors)) ∧
    (∀ row ∈ st2.book_genres, row ∈ st.book_genres ∨
      ((∃ b ∈ st2.books, b.id = row.book_id ∧ b.title = r.title) ∧
       ∃ g ∈ st2.genres, g.id = row.genre_id ∧
         ∃ cat ∈ r.categories, gNormalizeGenre cat = some g.name ∧
           g.name ≠ "")) := by
  intro st2
  obtain ⟨hIsa, hIsg, hIan, hIgn, hIai, hIgi, hIbi, hIab, hIgb, hIbb⟩ := hinv
  set st1 : GState := { st with
    books := st.books ++ [⟨st.nextId, r.title⟩]
    nextId := st.nextId + 1 } with hst1def
  have h1a : st1.authors = st.authors := rfl
  have h1g : st1.genres = st.genres := rfl
  have h1sa : st1.seen_authors = st.seen_authors := rfl
  have h1sg : st1.seen_genres = st.seen_genres := rfl
  have h1ba : st1.book_authors = st.book_authors := rfl
  have h1bg : st1.book_genres = st.book_genres := rfl
  have h1b : st1.books = st.books ++ [⟨st.nextId, r.title⟩] := rfl
  have h1n : st1.nextId = st.nextId + 1 := rfl
  have hIab1 : ∀ a ∈ st1.authors, a.id < st1.nextId := by
    intro a ha
    rw [h1a] at ha
    rw [h1n]
    exact Nat.lt_succ_of_lt (hIab a ha)
  obtain ⟨hAb, hAg, hAsg, hAbg, hAn, ⟨dAa, hAda⟩, ⟨dAba, hAdba⟩, hAseen,
    hAnodup, hAidn, hAidb, hAnames, hAseeneq, hArows, hAlen⟩ :=
    gAuthorFold st.nextId r.authors st1 hIsa hIan hIai hIab1
  set stA := r.authors.foldl (gProcessAuthor st.nextId) st1 with hstAdef
  have hIgb1 : ∀ g ∈ stA.genres, g.id < stA.nextId := by
    intro g hg
    rw [hAg, h1g] at hg
    refine lt_of_lt_of_le ?_ hAn
    rw [h1n]
    exact Nat.lt_succ_of_lt (hIgb g hg)
  have hGseen0 : ∀ n, n ∈ stA.seen_genres ↔
      n ∈ stA.genres.map (fun g => g.name) := by
    rw [hAsg, hAg, h1sg, h1g]
    exact hIsg
  have hGnodup0 : (stA.genres.map (fun g => g.name)).Nodup := by
    rw [hAg, h1g]; exact hIgn
  have hGidn0 : (stA.genres.map (fun g => g.id)).Nodup := by
    rw [hAg, h1g]; exact hIgi
  obtain ⟨hGb, hGa, hGsa, hGba, hGn, ⟨dGg, hGdg⟩, ⟨dGbg, hGdbg⟩, hGseen,
    hGnodup, hGidn, hGidb, hGrows, hGlen⟩ :=
    gGenreFold st.nextId r.categories stA hGseen0 hGnodup0 hGidn0 hIgb1
  set stG := r.categories.foldl (gProcessGenre st.nextId) stA with hstGdef
  have hst2 : st2 = stG := rfl
  rw [hst2]
  have hbooks : stG.books = st.books ++ [⟨st.nextId, r.title⟩] := by
    rw [hGb, hAb, h1b]
  have hGauth : stG.authors = st.authors ++ dAa := by
    rw [hGa, hAda, h1a]
  have hGrowsba : stG.book_authors = st.book_authors ++ dAba := by
    rw [hGba, hAdba, h1ba]
  have hGrowsbg : stG.book_genres = st.book_genres ++ dGbg := by
    rw [hGdbg, hAbg, h1bg]
  have hnext : st.nextId ≤ stG.nextId := by
    refine le_trans ?_ (le_trans hAn hGn)
    rw [h1n]
    exact Nat.le_succ _
  have hnextbound : ∀ b ∈ stG.books, b.id < stG.nextId := by
    intro b hb
    rw [hbooks] at hb
    have hn1G : st1.nextId ≤ stG.nextId := le_trans hAn hGn
    rw [h1n] at hn1G
    rcases List.mem_append.mp hb with hb | hb
    · have := hIbb b hb
      omega
    · rcases List.mem_singleton.mp hb with rfl
      show st.nextId < stG.nextId
      omega
  refine ⟨⟨?_, hGseen, ?_, hGnodup, ?_, hGidn, ?_, ?_, hGidb, hnextbound⟩,
    hnext, ⟨dAa, hGauth⟩, ⟨dGg, by rw [hGdg, hAg, h1g]⟩,
    ⟨dAba, hGrowsba⟩, ⟨dGbg, hGrowsbg⟩, hbooks, ?_, ?_, ?_, ?_, ?_, ?_⟩
  · rw [hGsa, hGa]
    exact hAseen
  · rw [hGa]
    exact hAnodup
  · rw [hGa]
    exact hAidn
  · rw [hbooks]
    simp only [List.map_append]
    rw [List.nodup_append]
    refine ⟨hIbi, by simp, ?_⟩
    intro x hx
    simp only [List.map_cons, List.map_nil, List.mem_singleton]
    intro hx2
    rcases List.mem_map.mp hx with ⟨b, hb, rfl⟩
    have := hIbb b hb
    omega
  · intro a ha
    rw [hGa] at ha
    exact lt_of_lt_of_le (hAidb a ha) hGn
  · rw [hGa, hAnames, h1a, h1sa]
  · rw [hGsa, hAseeneq, h1sa]
  · rw [hGba, hAlen, h1ba]
  · rw [hGlen, hAbg, h1bg]
  · intro row hrow
    rw [hGba] at hrow
    rcases hArows row hrow with hrow0 | ⟨hbid, a, ha, haid, haname⟩
    · rw [h1ba] at hrow0
      exact Or.inl hrow0
    · refine Or.inr ⟨⟨⟨st.nextId, r.title⟩, ?_, hbid.symm, rfl⟩,
        a, ?_, haid, haname⟩
      · rw [hbooks]
        exact List.mem_append_right _ (List.mem_singleton.mpr rfl)
      · rw [hGa]
        exact ha
  · intro row hrow
    rcases hGrows row hrow with hrow0 | ⟨hbid, g, hg, hgid, cat, hcat, hng, hgne⟩
    · rw [hAbg, h1bg] at hrow0
      exact Or.inl hrow0
    · refine Or.inr ⟨⟨⟨st.nextId, r.title⟩, ?_, hbid.symm, rfl⟩,
        g, hg, hgid, cat, hcat, hng, hgne⟩
      rw [hbooks]
      exact List.mem_append_right _ (List.mem_singleton.mpr rfl)

/-- The whole record loop of the Google normalizer. -/
theorem gRecordsFold :
    ∀ (records : List GRawRecord) (st : GState), GInv st →
    let st2 := records.foldl gProcessRecord st
    GInv st2 ∧
    st.nextId ≤ st2.nextId ∧
    (∃ d, st2.authors = st.authors ++ d) ∧
    (∃ d, st2.genres = st.genres ++ d) ∧
    (∃ d, st2.books = st.books ++ d) ∧
    st2.books.map (fun b => b.title) =
      st.books.map (fun b => b.title) ++ records.map (fun r => r.title) ∧
    st2.authors.map (fun a => a.name) =
      st.authors.map (fun a => a.name) ++
        gNewAuthorNames st.seen_authors (gAllAuthorNames records) ∧
    st2.seen_authors =
      gSeenAfter st.seen_authors (gAllAuthorNames records) ∧
    st2.book_authors.length = st.book_authors.length +
      ((records.map (fun r => r.authors.length)).sum) ∧
    (∀ row ∈ st2.book_authors, row ∈ st.book_authors ∨
      ∃ r ∈ records,
        (∃ b ∈ st2.books, b.id = row.book_id ∧ b.title = r.title) ∧
        ∃ a ∈ st2.authors, a.id = row.author_id ∧ a.name ∈ r.authors) ∧
    (∀ row ∈ st2.book_genres, row ∈ st.book_genres ∨
      ∃ r ∈ records,
        (∃ b ∈ st2.books, b.id = row.book_id ∧ b.title = r.title) ∧
        ∃ g ∈ st2.genres, g.id = row.genre_id ∧
          ∃ cat ∈ r.categories, gNormalizeGenre cat = some g.name ∧
            g.name ≠ "") := by
  intro records
  induction records with
  | nil =>
      intro st hinv st2
      have hst2 : st2 = st := rfl
      rw [hst2]
      refine ⟨hinv, le_refl _, ⟨[], by simp⟩, ⟨[], by simp⟩, ⟨[], by simp⟩,
        by simp, by simp [gNewAuthorNames, gAllAuthorNames],
        by simp [gSeenAfter, gAllAuthorNames], by simp, ?_, ?_⟩
      · intro row hrow
        exact Or.inl hrow
      · intro row hrow
        exact Or.inl hrow
  | cons r rs ih =>
      intro st hinv st2
      obtain ⟨hinv1, hn1, ⟨da1, hda1⟩, ⟨dg1, hdg1⟩, ⟨dba1, hdba1⟩,
        ⟨dbg1, hdbg1⟩, hbooks1, hnames1, hseen1, hlenba1, hlenbg1,
        hrows1, hgrows1⟩ := gProcessRecord_step st r hinv
      set st1 := gProcessRecord st r with hst1def
      obtain ⟨hinv2, hn2, ⟨da2, hda2⟩, ⟨dg2, hdg2⟩, ⟨db2, hdb2⟩, hbooks2,
        hnames2, hseen2, hlenba2, hrows2, hgrows2⟩ := ih st1 hinv1
      set stf := rs.foldl gProcessRecord st1 with hstfdef
      have hfold : st2 = stf := rfl
      rw [hfold]
      have hall : gAllAuthorNames (r :: rs) =
          r.authors ++ gAllAuthorNames rs := by
        simp [gAllAuthorNames]
      refine ⟨hinv2, le_trans hn1 hn2,
        ⟨da1 ++ da2, by rw [hda2, hda1, List.append_assoc]⟩,
        ⟨dg1 ++ dg2, by rw [hdg2, hdg1, List.append_assoc]⟩,
        ⟨[⟨st.nextId, r.title⟩] ++ db2, by
          rw [hdb2, hbooks1, List.append_assoc]⟩,
        ?_, ?_, ?_, ?_, ?_, ?_⟩
      · rw [hbooks2, hbooks1]
        simp
      · rw [hnames2, hnames1, hseen1, List.append_assoc, hall,
          gNewAuthorNames_append]
      · rw [hseen2, hseen1, hall, gSeenAfter_append]
      · rw [hlenba2, hlenba1]
        simp
        omega
      · intro row hrow
        rcases hrows2 row hrow with hrow1 | ⟨r2, hr2, hb2x, ha2x⟩
        · rcases hrows1 row hrow1 with hrow0 | ⟨⟨b, hb, hbid, hbti⟩,
            a, ha, haid, haname⟩
          · exact Or.inl hrow0
          · refine Or.inr ⟨r, List.mem_cons_self _ _,
              ⟨b, ?_, hbid, hbti⟩, a, ?_, haid, haname⟩
            · rw [hdb2]
              exact List.mem_append_left _ hb
            · rw [hda2]
              exact List.mem_append_left _ ha
        · exact Or.inr ⟨r2, List.mem_cons_of_mem _ hr2, hb2x, ha2x⟩
      · intro row hrow
        rcases hgrows2 row hrow with hrow1 | ⟨r2, hr2, hb2x, hg2x⟩
        · rcases hgrows1 row hrow1 with hrow0 | ⟨⟨b, hb, hbid, hbti⟩,
            g, hg, hgid, hcat⟩
          · exact Or.inl hrow0
          · refine Or.inr ⟨r, List.mem_cons_self _ _,
              ⟨b, ?_, hbid, hbti⟩, g, ?_, hgid, hcat⟩
            · rw [hdb2]
              exact List.mem_append_left _ hb
            · rw [hdg2]
              exact List.mem_append_left _ hg
        · exact Or.inr ⟨r2, List.mem_cons_of_mem _ hr2, hb2x, hg2x⟩

/-! ## Claim theorems -/

/-- Helper: records with a falsy title are skipped with no side effects. -/
theorem olProcessRecord_skip (st : OLState) (r : OLRawRecord)
    (h : optStrTruthy r.title = false) : olProcessRecord st r = st := by
  rw [olProcessRecord, if_neg]
  rw [h]
  simp

/-- Claim C1 counterexample: the Google normalizer mints a Book for a raw
record whose title is missing (`None`), so a record with a missing title
is not excluded from the output collections. -/
theorem c1_counterexample :
    (gStructureData [{ title := none, authors := [], categories := [] }]).books
      = [⟨0, none⟩] := by decide

/-- Claim C1, amended: the OpenLibrary normalizer emits exactly one Book
per record with truthy title, in input order, with pairwise distinct
fresh ids, and falsy-title records contribute nothing to any collection;
the Google normalizer emits one Book per raw record unconditionally, in
input order, titleless records included. -/
theorem c1_books_per_record (records : List OLRawRecord)
    (grecords : List GRawRecord) :
    (olStructureData records).books.map (fun b => b.title) =
      (records.filter (fun r => optStrTruthy r.title)).map
        (fun r => r.title.getD "") ∧
    ((olStructureData records).books.map (fun b => b.id)).Nodup ∧
    olStructureData records =
      olStructureData (records.filter (fun r => optStrTruthy r.title)) ∧
    (gStructureData grecords).books.map (fun b => b.title) =
      grecords.map (fun r => r.title) ∧
    (gStructureData grecords).books.length = grecords.length := by
  obtain ⟨⟨_, _, _, _, _, _, hbid, _, _, _⟩, _, _, _, _, hbooks, _, _, _,
    _, _, _⟩ := olRecordsFold records olInit OLInv_init
  obtain ⟨_, _, _, _, _, hgbooks, _, _, _, _, _⟩ :=
    gRecordsFold grecords gInit GInv_init
  refine ⟨?_, hbid, ?_, ?_, ?_⟩
  · simpa [olStructureData, olInit] using hbooks
  · exact foldl_skip_filter olProcessRecord (fun r => optStrTruthy r.title)
      (fun st r h => olProcessRecord_skip st r h) records olInit
  · simpa [gStructureData, gInit] using hgbooks
  · have h1 : ((gStructureData grecords).books.map (fun b => b.title)).length
        = (grecords.map (fun r => r.title)).length := by
      rw [show (gStructureData grecords).books.map (fun b => b.title)
        = grecords.map (fun r => r.title) from by
          simpa [gStructureData, gInit] using hgbooks]
    simpa using h1

/-- Claim C2 counterexample: `DataProcessor._process_dict` translates the
value stored under the key `"language"` like any other value — there is
no per-key skip-set, so the claimed exemption of language-code fields
does not hold. -/
theorem c2_counterexample :
    dpProcess (fun s => .ok (s ++ "!")) (.dict [("language", .str "en")]) =
      .ok (.dict [("language", .str "en!")]) := by
  rw [dpProcess, dpProcessDict, dpProcess, dpProcessDict]
  rfl

/-- Claim C2, amended: `TranslationManager._translate_dict` returns the
mapping unchanged exactly when it carries a truthy `is_russian` entry and
the target language is `'ru'`; otherwise — and always for
`DataProcessor._process_dict`, which has neither marker nor skip-set —
the values under all keys (including `"language"`) are recursively
translated, and the output preserves the input's key order. -/
theorem c2_dict_translation (b : List PyVal → Except PyErr PyVal)
    (target : String) (d : List (String × PyVal)) :
    (tmExempt d target = true → tmTranslateDict b target d = .ok d) ∧
    (tmExempt d target = false → ∀ d2,
      tmTranslateDict b target d = .ok d2 →
      d2.map Prod.fst = d.map Prod.fst ∧
      ∀ (i : Nat) (h1 : i < d.length) (h2 : i < d2.length),
        tmTranslate b target (d.get ⟨i, h1⟩).2 = .ok (d2.get ⟨i, h2⟩).2) ∧
    (∀ (tr : String → Except PyErr String) (dd d2 : List (String × PyVal)),
      dpProcessDict tr dd = .ok d2 →
      d2.map Prod.fst = dd.map Prod.fst ∧
      ∀ (i : Nat) (h1 : i < dd.length) (h2 : i < d2.length),
        dpProcess tr (dd.get ⟨i, h1⟩).2 = .ok (d2.get ⟨i, h2⟩).2) := by
  refine ⟨?_, ?_, ?_⟩
  · intro hex
    rw [tmTranslateDict, if_pos hex]
    rfl
  · intro hex d2 h
    rw [tmTranslateDict, if_neg (by rw [hex]; simp)] at h
    exact tmDictSeq_keys_values b target d d2 h
  · intro tr dd d2 h
    exact dpProcessDict_keys_values tr dd d2 h

/-- Claim C2 witness: a mapping flagged `is_russian` with target `'ru'`
is returned unchanged in its entirety. -/
theorem c2_dict_translation_witness :
    tmExempt [("is_russian", .bool true), ("language", .str "en")] "ru"
      = true ∧
    tmTranslateDict nullTranslatorText "ru"
      [("is_russian", .bool true), ("language", .str "en")] =
      .ok [("is_russian", .bool true), ("language", .str "en")] :=
  ⟨by decide,
   (c2_dict_translation nullTranslatorText "ru"
     [("is_russian", .bool true), ("language", .str "en")]).1 (by decide)⟩

/-- Claim C3: every concrete backend defines `translate_text` with one
parameter, while `TranslationManager.translate` invokes it with two
arguments; hence whenever the input contains a string leaf not exempted
by the `is_russian` short-circuit, the call returns `TypeError` instead
of a translated result — for each of the three backends. -/
theorem c3_backend_arity_type_error (fL fG : String → String)
    (target : String) (v : PyVal)
    (h : hasBareStringLeaf target v = true) :
    tmTranslate nullTranslatorText target v = .error .typeError ∧
    tmTranslate (localTranslatorText fL) target v = .error .typeError ∧
    tmTranslate (googleTranslatorText fG) target v = .error .typeError := by
  refine ⟨?_, ?_, ?_⟩
  · exact (tmTranslate_typeError nullTranslatorText target
      (fun s t => rfl) v).1 h
  · exact (tmTranslate_typeError (localTranslatorText fL) target
      (fun s t => rfl) v).1 h
  · exact (tmTranslate_typeError (googleTranslatorText fG) target
      (fun s t => rfl) v).1 h

/-- Claim C3 witness: translating the bare string `"hello"` to `'ru'`
raises `TypeError` under all three backends. -/
theorem c3_backend_arity_type_error_witness :
    hasBareStringLeaf "ru" (.str "hello") = true ∧
    tmTranslate nullTranslatorText "ru" (.str "hello") =
      .error .typeError ∧
    tmTranslate (localTranslatorText id) "ru" (.str "hello") =
      .error .typeError ∧
    tmTranslate (googleTranslatorText id) "ru" (.str "hello") =
      .error .typeError := by
  have h : hasBareStringLeaf "ru" (.str "hello") = true := by
    rw [hasBareStringLeaf]
  have h2 := c3_backend_arity_type_error id id "ru" (.str "hello") h
  exact ⟨h, h2.1, h2.2.1, h2.2.2⟩

set_option maxRecDepth 4000

/-- Claim C4 counterexample: a sequence of 501 items does **not** take
the chunked path — the chunking threshold in both
`DataProcessor._process_list` and `TranslationManager._translate_list`
is 1000 items, not 500. -/
theorem c4_counterexample :
    dpUsesChunking (List.replicate 501 PyVal.null) = false ∧
    tmUsesChunking (List.replicate 501 PyVal.null) = false ∧
    500 < 501 := by
  refine ⟨by decide, by decide, by decide⟩

set_option maxRecDepth 512

/-- Claim C4, amended: chunking applies only to sequences longer than
1000 items (the chunk size is 500); in both the chunked and the
single-batch path the result is the in-order element-wise translation of
the sequence — results concatenated in original order, every element
translated exactly once. -/
theorem c4_list_chunking (tr : String → Except PyErr String)
    (b : List PyVal → Except PyErr PyVal) (target : String)
    (data : List PyVal) :
    dpProcessList tr data = data.mapM (dpProcess tr) ∧
    dpProcessLarge tr data = data.mapM (dpProcess tr) ∧
    (dpUsesChunking data = true ↔ 1000 < data.length) ∧
    tmTranslateList b target data = data.mapM (tmTranslate b target) ∧
    tmProcessLarge b target data = data.mapM (tmTranslate b target) ∧
    (tmUsesChunking data = true ↔ 1000 < data.length) := by
  refine ⟨?_, ?_, ?_, ?_, ?_, ?_⟩
  · rw [dpProcessList_eq_seq, dpProcessSeq_eq_mapM]
  · rw [dpProcessLarge_eq_seq, dpProcessSeq_eq_mapM]
  · simp [dpUsesChunking]
  · rw [tmTranslateList_eq_seq, tmSeq_eq_mapM]
  · rw [tmProcessLarge_eq_seq, tmSeq_eq_mapM]
  · simp [tmUsesChunking]

/-- Claim C5: evaluation of both `_normalize_genre` implementations at
the spec's example inputs.  `normalize_genre("Sci-Fi")` yields `"Sci-Fi"`
(not `"Science Fiction"`): `str.title()` produces `"Sci-Fi"`, which
misses the mapping key `"Sci-fi"` — that table entry is unreachable,
since `.title()` always uppercases the letter after the hyphen.
Whitespace-only input yields `""` (not `None`): it escapes the `if not
genre` guard.  The Google variant has no mapping table at all, so the
`"Mystery"` collapse does not happen there either. -/
theorem c5_normalize_genre_eval :
    olNormalizeGenre "Sci-Fi" = some "Sci-Fi" ∧
    olNormalizeGenre "  " = some "" ∧
    olNormalizeGenre "Mystery and Suspense Fiction" = some "Mystery" ∧
    gNormalizeGenre "Sci-Fi" = some "Sci-Fi" ∧
    gNormalizeGenre "  " = some "" ∧
    gNormalizeGenre "Mystery and Suspense Fiction" =
      some "Mystery And Suspense Fiction" ∧
    olGenreMappingTable "Sci-fi" = "Science Fiction" ∧
    pyTitle "Sci-Fi" = "Sci-Fi" := by
  refine ⟨by decide, by decide, by decide, by decide, by decide, by decide,
    by decide, by decide⟩

/-- Claim C6 counterexample: a record listing the same author name twice
produces two identical BookAuthor rows for the same (book, author) pair
(book id 0, author id 1). -/
theorem c6_counterexample :
    (olStructureData
        [{ title := some "T", author_name := ["A", "A"], subject := [] }]
      ).book_authors = [⟨0, 1⟩, ⟨0, 1⟩] ∧
    (olStructureData
        [{ title := some "T", author_name := ["A", "A"], subject := [] }]
      ).authors = [⟨1, "A"⟩] := by
  refine ⟨by decide, by decide⟩

/-- Claim C6, amended: author names are processed in list order; the
OpenLibrary loop skips falsy names (the Google loop does not); an Author
is minted only on a name's first appearance in the run, so the Author
list is the first-appearance dedup of the processed names; but a
BookAuthor row is appended for **every** processed occurrence, so
duplicate names within one book yield duplicate rows — and likewise one
BookGenre row per truthy-normalized subject occurrence. -/
theorem c6_author_rows_per_occurrence (records : List OLRawRecord)
    (grecords : List GRawRecord) :
    (olStructureData records).authors.map (fun a => a.name) =
      olNewAuthorNames [] (olValidAuthorNames records) ∧
    (olStructureData records).book_authors.length =
      (((records.filter (fun r => optStrTruthy r.title)).map
        (fun r => (r.author_name.filter (fun n => n != "")).length)).sum) ∧
    (olStructureData records).book_genres.length =
      (((records.filter (fun r => optStrTruthy r.title)).map
        (fun r => (r.subject.filter
          (fun s => optStrTruthy (olNormalizeGenre s))).length)).sum) ∧
    (gStructureData grecords).authors.map (fun a => a.name) =
      gNewAuthorNames [] (gAllAuthorNames grecords) ∧
    (gStructureData grecords).book_authors.length =
      ((grecords.map (fun r => r.authors.length)).sum) := by
  obtain ⟨_, _, _, _, _, _, hnames, _, hlba, hlbg, _, _⟩ :=
    olRecordsFold records olInit OLInv_init
  obtain ⟨_, _, _, _, _, _, hgnames, _, hglba, _, _⟩ :=
    gRecordsFold grecords gInit GInv_init
  refine ⟨?_, ?_, ?_, ?_, ?_⟩
  · simpa [olStructureData, olInit] using hnames
  · simpa [olStructureData, olInit] using hlba
  · simpa [olStructureData, olInit] using hlbg
  · simpa [gStructureData, gInit] using hgnames
  · simpa [gStructureData, gInit] using hglba

/-- Claim C7: in both normalizers, Author names and normalized Genre
names each occur at most once per run, entity ids are pairwise distinct,
and every link row's foreign keys dereference to entities present in the
same result set — the referenced Author carrying a name listed for the
record that produced the row's Book, the referenced Genre carrying the
normalization of one of that record's subjects. -/
theorem c7_dedup_and_link_integrity (records : List OLRawRecord)
    (grecords : List GRawRecord) :
    ((olStructureData records).authors.map (fun a => a.name)).Nodup ∧
    ((olStructureData records).genres.map (fun g => g.name)).Nodup ∧
    ((olStructureData records).authors.map (fun a => a.id)).Nodup ∧
    ((olStructureData records).genres.map (fun g => g.id)).Nodup ∧
    ((olStructureData records).books.map (fun b => b.id)).Nodup ∧
    (∀ row ∈ (olStructureData records).book_authors,
      ∃ r ∈ records, optStrTruthy r.title = true ∧
        (∃ b ∈ (olStructureData records).books,
          b.id = row.book_id ∧ b.title = r.title.getD "") ∧
        ∃ a ∈ (olStructureData records).authors,
          a.id = row.author_id ∧ a.name ∈ r.author_name ∧ a.name ≠ "") ∧
    (∀ row ∈ (olStructureData records).book_genres,
      ∃ r ∈ records, optStrTruthy r.title = true ∧
        (∃ b ∈ (olStructureData records).books,
          b.id = row.book_id ∧ b.title = r.title.getD "") ∧
        ∃ g ∈ (olStructureData records).genres,
          g.id = row.genre_id ∧
          ∃ sub ∈ r.subject, olNormalizeGenre sub = some g.name ∧
            g.name ≠ "") ∧
    ((gStructureData grecords).authors.map (fun a => a.name)).Nodup ∧
    ((gStructureData grecords).genres.map (fun g => g.name)).Nodup ∧
    ((gStructureData grecords).authors.map (fun a => a.id)).Nodup ∧
    ((gStructureData grecords).genres.map (fun g => g.id)).Nodup ∧
    ((gStructureData grecords).books.map (fun b => b.id)).Nodup ∧
    (∀ row ∈ (gStructureData grecords).book_authors,
      ∃ r ∈ grecords,
        (∃ b ∈ (gStructureData grecords).books,
          b.id = row.book_id ∧ b.title = r.title) ∧
        ∃ a ∈ (gStructureData grecords).authors,
          a.id = row.author_id ∧ a.name ∈ r.authors) ∧
    (∀ row ∈ (gStructureData grecords).book_genres,
      ∃ r ∈ grecords,
        (∃ b ∈ (gStructureData grecords).books,
          b.id = row.book_id ∧ b.title = r.title) ∧
        ∃ g ∈ (gStructureData grecords).genres,
          g.id = row.genre_id ∧
          ∃ cat ∈ r.categories, gNormalizeGenre cat = some g.name ∧
            g.name ≠ "") := by
  obtain ⟨⟨_, _, han, hgn, hai, hgi, hbi, _, _, _⟩, _, _, _, _, _, _, _, _,
    _, hrows, hgrows⟩ := olRecordsFold records olInit OLInv_init
  obtain ⟨⟨_, _, ghan, ghgn, ghai, ghgi, ghbi, _, _, _⟩, _, _, _, _, _, _,
    _, _, ghrows, ghgrows⟩ := gRecordsFold grecords gInit GInv_init
  refine ⟨han, hgn, hai, hgi, hbi, ?_, ?_, ghan, ghgn, ghai, ghgi, ghbi,
    ?_, ?_⟩
  · intro row hrow
    rcases hrows row hrow with h0 | h
    · exact absurd h0 (by simp [olInit])
    · exact h
  · intro row hrow
    rcases hgrows row hrow with h0 | h
    · exact absurd h0 (by simp [olInit])
    · exact h
  · intro row hrow
    rcases ghrows row hrow with h0 | h
    · exact absurd h0 (by simp [gInit])
    · exact h
  · intro row hrow
    rcases ghgrows row hrow with h0 | h
    · exact absurd h0 (by simp [gInit])
    · exact h

/-- Claim C8: tree translation is all-or-nothing — if any string leaf's
translation fails, the whole `DataProcessor.process` call fails, and if
no leaf fails, the call succeeds with every leaf translated (never a
partially-translated structure as a success). -/
theorem c8_all_or_nothing (tr : String → Except PyErr String) (v : PyVal) :
    ((∃ s ∈ stringLeaves v, exceptOk (tr s) = false) →
      exceptOk (dpProcess tr v) = false) ∧
    ((∀ s ∈ stringLeaves v, exceptOk (tr s) = true) →
      dpProcess tr v = .ok (translateAllLeaves (trTotal tr) v)) := by
  constructor
  · rintro ⟨s, hs, hfail⟩
    cases hq : exceptOk (dpProcess tr v) with
    | false => rfl
    | true =>
        have := dpProcess_ok_leaves tr v hq s hs
        rw [hfail] at this
        cases this
  · exact dpProcess_allOk tr v

/-- Claim C8 witness: a failing leaf fails the whole call; with no
failing leaf the whole structure comes back fully translated. -/
theorem c8_all_or_nothing_witness :
    exceptOk (dpProcess (fun _ => .error (.other "boom")) (.str "x"))
      = false ∧
    dpProcess (fun s => .ok (s ++ "!")) (.dict [("k", .str "x")]) =
      .ok (.dict [("k", .str "x!")]) := by
  constructor
  · refine (c8_all_or_nothing (fun _ => .error (.other "boom")) (.str "x")).1
      ⟨"x", ?_, rfl⟩
    rw [stringLeaves]
    exact List.mem_singleton.mpr rfl
  · have h := (c8_all_or_nothing (fun s => .ok (s ++ "!"))
      (.dict [("k", .str "x")])).2 ?_
    · rw [h]
      rw [translateAllLeaves, translateAllLeavesDict, translateAllLeaves,
        translateAllLeavesDict]
      rfl
    · intro s hs
      rw [stringLeaves, stringLeavesDict, stringLeaves,
        stringLeavesDict] at hs
      simp at hs
      rw [hs]
      rfl

/-- Claim C9: running the tree translation with the identity capability
(`NullTranslator.translate_text`, which returns its argument) returns a
value equal to the input — key order, element order and nesting all
preserved, for arbitrarily nested structures. -/
theorem c9_null_translator_roundtrip (v : PyVal) :
    dpProcess nullTranslateText v = .ok v :=
  dpProcess_null_id v

/-- An OpenLibrary search document with an explicitly empty `title`
value. -/
def olDocEmptyTitle : OLDoc :=
  { title := some "", author_name := [], subject := [],
    subject_people := [], subject_places := [] }

/-- An OpenLibrary search document without a `title` key. -/
def olDocNoTitle : OLDoc :=
  { title := none, author_name := [], subject := [],
    subject_people := [], subject_places := [] }

/-- Claim C10 counterexample: an OpenLibrary document whose `title` field
is present but empty is parsed to a record with an empty title — the
`'Untitled'` default applies only when the key is absent — and the
no-title skip of `_structure_data` then drops it. -/
theorem c10_counterexample :
    (olParseBookItem olDocEmptyTitle).title = some "" ∧
    (olStructureData [olParseBookItem olDocEmptyTitle]).books = [] := by
  refine ⟨by decide, by decide⟩

/-- Claim C10, amended: `_parse_book_item` emits
`doc.get('title', 'Untitled')`; a document without a `title` key is
defaulted to `"Untitled"` and becomes a Book titled `"Untitled"` rather
than being dropped, but a document with an explicitly empty title yields
an empty-titled record, for which the no-title skip does fire. -/
theorem c10_untitled_default (doc : OLDoc) :
    (olParseBookItem doc).title = some (doc.title.getD "Untitled") ∧
    (doc.title = none →
      (olStructureData [olParseBookItem doc]).books.map (fun b => b.title)
        = ["Untitled"]) ∧
    (doc.title = some "" →
      (olStructureData [olParseBookItem doc]).books = []) := by
  refine ⟨rfl, ?_, ?_⟩
  · intro hnone
    obtain ⟨_, _, _, _, _, hbooks, _, _, _, _, _, _⟩ :=
      olRecordsFold [olParseBookItem doc] olInit OLInv_init
    have ht : optStrTruthy (olParseBookItem doc).title = true := by
      simp [olParseBookItem, hnone, optStrTruthy]
    simp only [olStructureData]
    rw [show (([olParseBookItem doc].foldl olProcessRecord olInit)) =
      olStructureData [olParseBookItem doc] from rfl] at *
    simpa [olStructureData, olInit, List.filter_cons, ht, olParseBookItem,
      hnone] using hbooks
  · intro hempty
    have ht : optStrTruthy (olParseBookItem doc).title = false := by
      simp [olParseBookItem, hempty, optStrTruthy]
    have hskip : olProcessRecord olInit (olParseBookItem doc) = olInit :=
      olProcessRecord_skip olInit (olParseBookItem doc) ht
    show (olProcessRecord olInit (olParseBookItem doc)).books = []
    rw [hskip]
    rfl

/-- Claim C10 witness: a document without a `title` key becomes a Book
titled `"Untitled"`; one with an empty title is dropped. -/
theorem c10_untitled_default_witness :
    (olStructureData [olParseBookItem olDocNoTitle]).books.map
      (fun b => b.title) = ["Untitled"] ∧
    (olStructureData [olParseBookItem olDocEmptyTitle]).books = [] :=
  ⟨(c10_untitled_default olDocNoTitle).2.1 rfl,
   (c10_untitled_default olDocEmptyTitle).2.2 rfl⟩

end TBook
